import Mathlib

/-
Verification of the treeTheil module: a shallow embedding of the Python
source (treeTheil.py) into Lean 4.  Group-count dictionaries are modelled
as insertion-ordered association lists with rational values (Python floats
modelled as rationals for the stored data; derived statistics live in the
real numbers because entropy uses logarithms).  Fallible operations
(dictionary lookups that can raise KeyError, float parsing that can raise
ValueError, node lookups that can raise NodeIDAbsentError, divisions that
can raise ZeroDivisionError) return Option values, with none modelling a
raised exception.
-/

namespace TreeTheil

/-- A Python dict from group name to numeric count, modelled as an
insertion-ordered association list. -/
abbrev Dict := List (String × ℚ)

/-- Lookup modelling pythonDict[key]: some value, or none for a KeyError. -/
def dictFind (d : Dict) (k : String) : Option ℚ :=
  (d.find? (fun kv => kv.1 == k)).map (fun kv => kv.2)

/-- Total lookup with junk default 0, used only to state theorems. -/
def dictGet (d : Dict) (k : String) : ℚ :=
  (dictFind d k).getD 0

/-- The keys of a dict in order. -/
def dictKeys (d : Dict) : List String :=
  d.map Prod.fst

/-- The Thile payload attached to each node: the group counts for the node
and the lowest identifying unit, as in class Thile of the source. -/
structure Thile where
  groups : Dict
  lunit : String
  deriving DecidableEq, Repr

/-- Thile.total of the source: sum of the group values. -/
def Thile.total (t : Thile) : ℚ :=
  (t.groups.map Prod.snd).sum

/-- Thile.entropy of the source: sum over the group values of
0 when the value is 0, else (v / total) * log2 (total / v). -/
noncomputable def Thile.entropy (t : Thile) : ℝ :=
  (t.groups.map (fun kv =>
    if kv.2 = 0 then (0 : ℝ)
    else ((kv.2 : ℝ) / (t.total : ℝ)) * Real.logb 2 ((t.total : ℝ) / (kv.2 : ℝ)))).sum

/-- Value of a nonempty digit run. -/
def natOfDigits (l : List Char) : ℕ :=
  l.foldl (fun a c => 10 * a + (c.toNat - 48)) 0

/-- Whether every character of the run is a decimal digit. -/
def allDigits (l : List Char) : Bool :=
  l.all (fun c => c.isDigit)

/-- Split a character run at the first dot, if any. -/
def splitDot : List Char → (List Char × Option (List Char))
  | [] => ([], none)
  | c :: rest =>
    if c = '.' then ([], some rest)
    else
      let p := splitDot rest
      (c :: p.1, p.2)

/-- Modelled from the spec: the Python builtin float() applied to a CSV cell,
which the repository calls but does not define.  Parsing is modelled for
unsigned and negative decimal literals (digits with an optional fractional
part); none models a raised ValueError. -/
def pyfloatCore (l : List Char) : Option ℚ :=
  match splitDot l with
  | (ip, none) =>
    if !ip.isEmpty && allDigits ip then some (natOfDigits ip) else none
  | (ip, some fp) =>
    if (!ip.isEmpty || !fp.isEmpty) && allDigits ip && allDigits fp then
      some ((natOfDigits ip : ℚ) + (natOfDigits fp : ℚ) / ((10 : ℚ) ^ fp.length))
    else none

/-- Modelled from the spec: float() including an optional leading minus sign. -/
def pyfloat (s : String) : Option ℚ :=
  match s.data with
  | '-' :: rest => (pyfloatCore rest).map (fun q => -q)
  | l => pyfloatCore l

/-- maybefloat of the source: the parsed number when float() succeeds, the
original value when float() raises ValueError. -/
inductive PyScalar where
  | num : ℚ → PyScalar
  | str : String → PyScalar
  deriving DecidableEq, Repr

/-- maybefloat of the source. -/
def maybefloat (s : String) : PyScalar :=
  match pyfloat s with
  | some q => PyScalar.num q
  | none => PyScalar.str s

/-- A CSV row: a mapping from field name to raw string value. -/
abbrev Row := List (String × String)

/-- row[field]; none models a KeyError. -/
def rowGet (r : Row) (k : String) : Option String :=
  (r.find? (fun kv => kv.1 == k)).map (fun kv => kv.2)

/-- A node of the treelib tree: identifier, parent pointer, ordered list of
child identifiers, and the Thile payload. -/
structure TNode where
  nid : String
  parent : Option String
  children : List String
  data : Thile
  deriving DecidableEq, Repr

/-- The treelib tree: node storage in insertion order. -/
structure Tree where
  nodes : List TNode
  deriving DecidableEq, Repr

/-- tree[nid]; none models a NodeIDAbsentError. -/
def Tree.get (t : Tree) (nid : String) : Option TNode :=
  t.nodes.find? (fun n => n.nid == nid)

/-- tree.contains(nid). -/
def Tree.contains (t : Tree) (nid : String) : Bool :=
  (t.get nid).isSome

/-- tree.parent(nid) followed by a data access: none models both the
NodeIDAbsentError for an absent node and the AttributeError raised when the
parent of the root (None) is dereferenced. -/
def Tree.parentOf (t : Tree) (nid : String) : Option TNode :=
  match t.get nid with
  | none => none
  | some n =>
    match n.parent with
    | none => none
    | some pid => t.get pid

/-- tree.children(nid), as identifiers; none models a NodeIDAbsentError. -/
def Tree.childrenOf (t : Tree) (nid : String) : Option (List String) :=
  (t.get nid).map (fun n => n.children)

/-- tree.create_node(nid, nid, parent, data): fails on a duplicate
identifier, on a second parentless node, or on an absent parent. -/
def Tree.create_node (t : Tree) (nid : String) (parent : Option String) (d : Thile) :
    Option Tree :=
  if t.contains nid then none
  else
    match parent with
    | none => if t.nodes.isEmpty then some ⟨[⟨nid, none, [], d⟩]⟩ else none
    | some pid =>
      if t.contains pid then
        some ⟨(t.nodes.map (fun n =>
          if n.nid = pid then ⟨n.nid, n.parent, n.children ++ [nid], n.data⟩ else n))
          ++ [⟨nid, some pid, [], d⟩]⟩
      else none

/-- The leaves of the tree, in insertion order, as in treelib leaves(). -/
def Tree.leaves (t : Tree) : List TNode :=
  t.nodes.filter (fun n => n.children.isEmpty)

/-- Walk the parent pointers upward and return the root-to-nid path, with
fuel to make the walk total; none models an absent node or a cycle. -/
def ancPath (t : Tree) : ℕ → String → Option (List String)
  | 0, _ => none
  | f + 1, nid =>
    match t.get nid with
    | none => none
    | some n =>
      match n.parent with
      | none => some [nid]
      | some pid => (ancPath t f pid).map (fun p => p ++ [nid])

/-- tree.paths_to_leaves(): for each leaf in insertion order, the
root-to-leaf path of identifiers. -/
def Tree.pathsToLeaves (t : Tree) : List (List String) :=
  t.leaves.filterMap (fun l => ancPath t (t.nodes.length + 1) l.nid)

/-- tree.level(nid): the depth of the node, 0 at the root. -/
def levelAux (t : Tree) : ℕ → String → Option ℕ
  | 0, _ => none
  | f + 1, nid =>
    match t.get nid with
    | none => none
    | some n =>
      match n.parent with
      | none => some 0
      | some pid => (levelAux t f pid).map (fun l => l + 1)

/-- tree.level(nid) with the standard fuel. -/
def Tree.levelOf (t : Tree) (nid : String) : Option ℕ :=
  levelAux t (t.nodes.length + 1) nid

/-- Replace the groups dict of one node, modelling the in-place mutation of
tree[nid].data.groups. -/
def Tree.setGroups (t : Tree) (nid : String) (g : Dict) : Tree :=
  ⟨t.nodes.map (fun n =>
    if n.nid = nid then ⟨n.nid, n.parent, n.children, ⟨g, n.data.lunit⟩⟩ else n)⟩

/-- inc_dict of the source: for each key of toDict, add fromDict[key] to
toDict[key]; none models the KeyError raised when fromDict lacks a key. -/
def inc_dict (fromD toD : Dict) : Option Dict :=
  toD.mapM (fun kv => (dictFind fromD kv.1).map (fun x => (kv.1, kv.2 + x)))

/-- deepcopy_node_data of the source: copy the groups dict across nodes
(deep copy is the identity on immutable Lean values). -/
def deepcopy_node_data (t : Tree) (fromNode toNode : String) : Option Tree := do
  let fn ← t.get fromNode
  let _ ← t.get toNode
  pure (t.setGroups toNode fn.data.groups)

/-- One parent update of leaf_up_tree: copy the leaf dict into an empty
parent dict, add it into a nonempty one. -/
def aggStep (t : Tree) (leaf parent : String) : Option Tree := do
  let pn ← t.get parent
  if pn.data.groups = [] then deepcopy_node_data t leaf parent
  else do
    let ln ← t.get leaf
    let g ← inc_dict ln.data.groups pn.data.groups
    pure (t.setGroups parent g)

/-- Process one root-to-leaf path of leaf_up_tree: pop the leaf, then
update every remaining path element in order. -/
def processPath (t : Tree) (path : List String) : Option Tree :=
  match path.getLast? with
  | none => none
  | some leaf => path.dropLast.foldlM (fun acc parent => aggStep acc leaf parent) t

/-- leaf_up_tree of the source: hierarchically sum the leaf data up the
tree, one root-to-leaf path at a time. -/
def leaf_up_tree (t : Tree) : Option Tree :=
  t.pathsToLeaves.foldlM processPath t

/-- The leaf payload of one row: group name mapped to float(row[group]);
none models a KeyError for a missing field or a ValueError from float(). -/
def leafData (row : Row) (groups : List String) : Option Dict :=
  groups.mapM (fun g => ((rowGet row g).bind pyfloat).map (fun q => (g, q)))

/-- The per-row loop of tree_structure: walk down the levels, extending the
node identifier by a pipe and the level value, passing nodes that already
exist, creating interior nodes with empty data and the deepest node with
the leaf payload. -/
def rowLoop (row : Row) (ld : Dict) : Tree → String → List String → Option Tree
  | t, _, [] => some t
  | t, nid, lv :: rest => do
    let v ← rowGet row lv
    let nid2 := nid ++ "|" ++ v
    if t.contains nid2 then rowLoop row ld t nid2 rest
    else
      if rest.isEmpty then t.create_node nid2 (some nid) ⟨ld, v⟩
      else do
        let t2 ← t.create_node nid2 (some nid) ⟨[], v⟩
        rowLoop row ld t2 nid2 rest

/-- One row of tree_structure: the leaf payload dict is built first (so a
bad group value raises even when the leaf already exists), then the level
loop runs. -/
def processRow (root : String) (levels groups : List String) (t : Tree) (row : Row) :
    Option Tree := do
  let ld ← leafData row groups
  rowLoop row ld t root levels

/-- tree_structure of the source: create the root, then process the rows
in order. -/
def tree_structure (rows : List Row) (root : String) (levels groups : List String) :
    Option Tree := do
  let t0 ← Tree.create_node ⟨[]⟩ root none ⟨[], root⟩
  rows.foldlM (fun t row => processRow root levels groups t row) t0

/-- theilTree of the source: build the structure, then aggregate leaf data
up the tree. -/
def theilTree (rows : List Row) (root : String) (levels groups : List String) :
    Option Tree :=
  (tree_structure rows root levels groups).bind leaf_up_tree

/-- node_weight of the source: 0 when the parent total is 0, else the node
total divided by the parent total; none models the exception raised when
the parent lookup fails (absent node, or root with parent None). -/
noncomputable def node_weight (t : Tree) (nid : String) : Option ℝ := do
  let p ← t.parentOf nid
  let n ← t.get nid
  pure (if p.data.total = 0 then (0 : ℝ) else (n.data.total : ℝ) / (p.data.total : ℝ))

/-- node_diversity of the source: 0 when the parent entropy is 0, else the
node entropy divided by the parent entropy. -/
noncomputable def node_diversity (t : Tree) (nid : String) : Option ℝ := do
  let p ← t.parentOf nid
  let n ← t.get nid
  pure (if p.data.entropy = 0 then (0 : ℝ) else n.data.entropy / p.data.entropy)

/-- node_entdev of the source: 0 when the parent entropy is 0, else the
entropy drop from parent to node divided by the parent entropy. -/
noncomputable def node_entdev (t : Tree) (nid : String) : Option ℝ := do
  let p ← t.parentOf nid
  let n ← t.get nid
  pure (if p.data.entropy = 0 then (0 : ℝ)
        else (p.data.entropy - n.data.entropy) / p.data.entropy)

/-- node_weight_recur of the source, with fuel for the upward recursion:
1 at the root, else node_weight times the recursion on the parent. -/
noncomputable def nwrAux (t : Tree) : ℕ → String → Option ℝ
  | 0, _ => none
  | f + 1, nid => do
    let lv ← t.levelOf nid
    if lv = 0 then pure (1 : ℝ)
    else do
      let w ← node_weight t nid
      let pn ← t.parentOf nid
      let r ← nwrAux t f pn.nid
      pure (w * r)

/-- node_weight_recur of the source with the standard fuel. -/
noncomputable def node_weight_recur (t : Tree) (nid : String) : Option ℝ :=
  nwrAux t (t.nodes.length + 1) nid

/-- node_diversity_recur of the source, with fuel for the upward recursion. -/
noncomputable def ndrAux (t : Tree) : ℕ → String → Option ℝ
  | 0, _ => none
  | f + 1, nid => do
    let lv ← t.levelOf nid
    if lv = 0 then pure (1 : ℝ)
    else do
      let dv ← node_diversity t nid
      let pn ← t.parentOf nid
      let r ← ndrAux t f pn.nid
      pure (dv * r)

/-- node_diversity_recur of the source with the standard fuel. -/
noncomputable def node_diversity_recur (t : Tree) (nid : String) : Option ℝ :=
  ndrAux t (t.nodes.length + 1) nid

/-- theil_cmp of the source: the node weight times the node entropy
deviation. -/
noncomputable def theil_cmp (t : Tree) (nid : String) : Option ℝ := do
  let w ← node_weight t nid
  let e ← node_entdev t nid
  pure (w * e)

/-- The recursion of theil, structural in the recursion counter: at 0 the
sum over the children of theil_cmp, else additionally the child weight
times the child diversity times the recursive theil of the child. -/
noncomputable def theilAux (t : Tree) : ℕ → String → Option ℝ
  | 0, nid => do
    let cs ← t.childrenOf nid
    cs.foldlM (fun acc c => do
      let x ← theil_cmp t c
      pure (acc + x)) (0 : ℝ)
  | r + 1, nid => do
    let cs ← t.childrenOf nid
    cs.foldlM (fun acc c => do
      let x ← theil_cmp t c
      let w ← node_weight t c
      let dv ← node_diversity t c
      let th ← theilAux t r c
      pure (acc + x + w * dv * th)) (0 : ℝ)

/-- theil of the source, with the argument order of the source. -/
noncomputable def theil (t : Tree) (nid : String) (recursions : ℕ) : Option ℝ :=
  theilAux t recursions nid

/-- btw_theil of the source. -/
noncomputable def btw_theil (t : Tree) (nid : String) : Option ℝ :=
  theil t nid 0

/-- Modelled from the spec: the theil recursion exactly as the spec words
it, the recursive term being nodeWeight(child) * theil(tree, child, d-1)
with no diversity factor.  Written only to compare the spec formula with
the theil of the source. -/
noncomputable def theilSpecAux (t : Tree) : ℕ → String → Option ℝ
  | 0, nid => do
    let cs ← t.childrenOf nid
    cs.foldlM (fun acc c => do
      let x ← theil_cmp t c
      pure (acc + x)) (0 : ℝ)
  | r + 1, nid => do
    let cs ← t.childrenOf nid
    cs.foldlM (fun acc c => do
      let x ← theil_cmp t c
      let w ← node_weight t c
      let th ← theilSpecAux t r c
      pure (acc + x + w * th)) (0 : ℝ)

/-- Modelled from the spec: theil with the argument order of the source. -/
noncomputable def theilSpec (t : Tree) (nid : String) (recursions : ℕ) : Option ℝ :=
  theilSpecAux t recursions nid

/-- xwin_theil of the source: over all nodes whose lunit equals the given
label, sum entropy deviation times recursive weight times recursive
diversity. -/
noncomputable def xwin_theil (t : Tree) (lunit : String) : Option ℝ :=
  (t.nodes.filter (fun n => n.data.lunit == lunit)).foldlM (fun acc n => do
    let e ← node_entdev t n.nid
    let w ← node_weight_recur t n.nid
    let dv ← node_diversity_recur t n.nid
    pure (acc + e * w * dv)) (0 : ℝ)

/-- Split a character run at every pipe character. -/
def splitPipe : List Char → List (List Char)
  | [] => [[]]
  | c :: rest =>
    if c = '|' then [] :: splitPipe rest
    else
      match splitPipe rest with
      | [] => [[c]]
      | h :: t => (c :: h) :: t

/-- Modelled from the spec: the Python builtin str.split applied to a node
identifier with separator pipe, which the repository calls but does not
define. -/
def pySplit (s : String) : List String :=
  (splitPipe s.data).map (fun l => String.mk l)

/-- Modelled from the spec: the Python builtin int() on a decimal string
with an optional leading minus sign; none models a raised ValueError. -/
def pyint (s : String) : Option ℤ :=
  match s.data with
  | '-' :: rest =>
    if !rest.isEmpty && allDigits rest then some (-(natOfDigits rest : ℤ)) else none
  | l => if !l.isEmpty && allDigits l then some ((natOfDigits l : ℤ)) else none

/-- mtree_stage of the source: element 1 of the identifier split on pipes;
none models an absent node or an IndexError. -/
def mtree_stage (t : Tree) (nid : String) : Option String :=
  (t.get nid).bind (fun n => (pySplit n.nid).get? 1)

/-- mtree_nid of the source: elements 2 onward of the split identifier,
rejoined with pipes. -/
def mtree_nid (t : Tree) (nid : String) : Option String :=
  (t.get nid).map (fun n => String.intercalate ("|") ((pySplit n.nid).drop 2))

/-- mtree_root of the source: element 0 of the split identifier. -/
def mtree_root (t : Tree) (nid : String) : Option String :=
  (t.get nid).bind (fun n => (pySplit n.nid).get? 0)

/-- change_comps of the source: the segregation and population components
of the change in the Theil contribution of a node relative to the node of
the previous stage.  none models a failed node lookup, an unparseable
stage number, or a ZeroDivisionError in one of the three divisions. -/
noncomputable def change_comps (t : Tree) (nid : String) : Option (ℝ × ℝ) := do
  let n ← t.get nid
  let pn ← t.parentOf nid
  let ejNew := n.data.entropy
  let eNew := pn.data.entropy
  let wjNew := (n.data.total : ℝ)
  let wNew := (pn.data.total : ℝ)
  let rt ← mtree_root t nid
  let stg ← mtree_stage t nid
  let mn ← mtree_nid t nid
  let st ← pyint stg
  let oldnid := String.intercalate ("|") [rt, toString (st - 1), mn]
  let old ← t.get oldnid
  let pold ← t.parentOf oldnid
  let ej := old.data.entropy
  let e := pold.data.entropy
  let wj := (old.data.total : ℝ)
  let w := (pold.data.total : ℝ)
  let pj ← node_weight t oldnid
  let ejdev ← node_entdev t oldnid
  let dotE := eNew - e
  let dotEj := ejNew - ej
  let dotwj := wjNew - wj
  let dotw := wNew - w
  if e * (e + dotE) = 0 then none
  else if wj = 0 then none
  else if w = 0 then none
  else pure (pj * ((dotE * ej - e * dotEj) / (e * (e + dotE))),
             pj * (ejdev * ((dotwj / wj) - (dotw / w))))

/-- A dynamically typed Python value as it flows through theil_changes: the
numeric accumulator or the pair returned by change_comps. -/
inductive PyVal where
  | num : ℝ → PyVal
  | pair : ℝ → ℝ → PyVal

/-- Python addition on such values: defined on two numbers, a TypeError
(none) on every other combination, in particular number + tuple. -/
noncomputable def pyAdd : PyVal → PyVal → Option PyVal
  | PyVal.num a, PyVal.num b => some (PyVal.num (a + b))
  | _, _ => none

/-- theil_changes of the source: accumulate the change_comps results of the
children into an accumulator initialised with the number 0. -/
noncomputable def theil_changes (t : Tree) (nid : String) : Option PyVal := do
  let cs ← t.childrenOf nid
  cs.foldlM (fun acc c => do
    let pr ← change_comps t c
    pyAdd acc (PyVal.pair pr.1 pr.2)) (PyVal.num 0)

/-
Generic list helpers used throughout the development.
-/

lemma rsum_nonneg (l : List ℝ) (h : ∀ x ∈ l, 0 ≤ x) : 0 ≤ l.sum := by
  induction l with
  | nil => simp
  | cons a rest ih =>
    simp only [List.sum_cons]
    have ha := h a (List.mem_cons_self a rest)
    have hr := ih (fun x hx => h x (List.mem_cons_of_mem a hx))
    linarith

lemma rsum_eq_zero (l : List ℝ) (h : ∀ x ∈ l, x = 0) : l.sum = 0 := by
  induction l with
  | nil => simp
  | cons a rest ih =>
    simp only [List.sum_cons]
    rw [h a (List.mem_cons_self a rest), ih (fun x hx => h x (List.mem_cons_of_mem a hx))]
    simp

lemma rsum_pos_of_mem_pos (l : List ℝ) (h : ∀ x ∈ l, 0 ≤ x) (x : ℝ) (hx : x ∈ l)
    (hxp : 0 < x) : 0 < l.sum := by
  induction l with
  | nil => simp at hx
  | cons a rest ih =>
    simp only [List.sum_cons]
    rcases List.mem_cons.mp hx with h1 | h1
    · have hr := rsum_nonneg rest (fun y hy => h y (List.mem_cons_of_mem a hy))
      rw [← h1] at *
      linarith
    · have ha := h a (List.mem_cons_self a rest)
      have := ih (fun y hy => h y (List.mem_cons_of_mem a hy)) h1
      linarith

lemma qsum_nonneg (l : List ℚ) (h : ∀ x ∈ l, 0 ≤ x) : 0 ≤ l.sum := by
  induction l with
  | nil => simp
  | cons a rest ih =>
    simp only [List.sum_cons]
    have ha := h a (List.mem_cons_self a rest)
    have hr := ih (fun x hx => h x (List.mem_cons_of_mem a hx))
    linarith

lemma qsum_single_le (l : List ℚ) (h : ∀ x ∈ l, 0 ≤ x) (x : ℚ) (hx : x ∈ l) :
    x ≤ l.sum := by
  induction l with
  | nil => simp at hx
  | cons a rest ih =>
    simp only [List.sum_cons]
    have hr : (0 : ℚ) ≤ rest.sum :=
      qsum_nonneg rest (fun y hy => h y (List.mem_cons_of_mem a hy))
    rcases List.mem_cons.mp hx with h1 | h1
    · rw [h1]; linarith
    · have ha := h a (List.mem_cons_self a rest)
      have := ih (fun y hy => h y (List.mem_cons_of_mem a hy)) h1
      linarith

/-
Entropy facts (claim C5).
-/

/-- One summand of Thile.entropy, abstracted over the total. -/
noncomputable def entTerm (T v : ℚ) : ℝ :=
  if v = 0 then (0 : ℝ) else ((v : ℝ) / (T : ℝ)) * Real.logb 2 ((T : ℝ) / (v : ℝ))

lemma entropy_eq_terms (th : Thile) :
    th.entropy = (th.groups.map (fun kv => entTerm th.total kv.2)).sum := rfl

lemma entTerm_nonneg {T v : ℚ} (hv : 0 ≤ v) (hvT : v ≤ T) : 0 ≤ entTerm T v := by
  unfold entTerm
  by_cases h : v = 0
  · simp [h]
  · rw [if_neg h]
    have hv0 : (0 : ℚ) < v := lt_of_le_of_ne hv (Ne.symm h)
    have hv0R : (0 : ℝ) < (v : ℝ) := by exact_mod_cast hv0
    have hT0R : (0 : ℝ) < (T : ℝ) := by exact_mod_cast lt_of_lt_of_le hv0 hvT
    have hvTR : (v : ℝ) ≤ (T : ℝ) := by exact_mod_cast hvT
    have h1 : (1 : ℝ) ≤ (T : ℝ) / (v : ℝ) := (one_le_div hv0R).mpr hvTR
    exact mul_nonneg (div_nonneg hv0R.le hT0R.le)
      (Real.logb_nonneg (by norm_num) h1)

lemma entTerm_pos {T v : ℚ} (hv : 0 < v) (hvT : v < T) : 0 < entTerm T v := by
  unfold entTerm
  rw [if_neg (ne_of_gt hv)]
  have hv0R : (0 : ℝ) < (v : ℝ) := by exact_mod_cast hv
  have hT0R : (0 : ℝ) < (T : ℝ) := by exact_mod_cast lt_trans hv hvT
  have hvTR : (v : ℝ) < (T : ℝ) := by exact_mod_cast hvT
  have h1 : (1 : ℝ) < (T : ℝ) / (v : ℝ) := (one_lt_div hv0R).mpr hvTR
  exact mul_pos (div_pos hv0R hT0R) (Real.logb_pos (by norm_num) h1)

lemma entTerm_self (v : ℚ) : entTerm v v = 0 := by
  unfold entTerm
  by_cases h : v = 0
  · simp [h]
  · rw [if_neg h]
    have : ((v : ℝ) / (v : ℝ)) = 1 := div_self (by exact_mod_cast h)
    rw [this, Real.logb_one, mul_zero]

lemma entTerm_zero (T : ℚ) : entTerm T 0 = 0 := by
  unfold entTerm
  simp

/-- The filtered form of the entropy sum: terms with value 0 are dropped,
the remaining values are positive when all values are nonnegative. -/
lemma terms_filter (T : ℚ) (l : List (String × ℚ)) (h : ∀ kv ∈ l, 0 ≤ kv.2) :
    (l.map (fun kv => entTerm T kv.2)).sum
      = ((l.filter (fun kv => decide (0 < kv.2))).map (fun kv =>
          ((kv.2 : ℝ) / (T : ℝ)) * Real.logb 2 ((T : ℝ) / (kv.2 : ℝ)))).sum := by
  induction l with
  | nil => simp
  | cons kv rest ih =>
    have hkv := h kv (List.mem_cons_self kv rest)
    have ihr := ih (fun x hx => h x (List.mem_cons_of_mem kv hx))
    by_cases h0 : kv.2 = 0
    · simp only [List.map_cons, List.sum_cons, List.filter_cons]
      rw [show entTerm T kv.2 = 0 by rw [h0]; exact entTerm_zero T]
      have : decide (0 < kv.2) = false := by simp [h0]
      rw [this]
      simpa using ihr
    · have hpos : (0 : ℚ) < kv.2 := lt_of_le_of_ne hkv (Ne.symm h0)
      have hd : decide (0 < kv.2) = true := by simpa using hpos
      simp only [List.map_cons, List.sum_cons, List.filter_cons, hd, if_true]
      rw [ihr]
      unfold entTerm
      rw [if_neg h0]

/-- A list whose nonzero filter is empty has value sum 0. -/
lemma values_sum_of_filter_nil (l : List (String × ℚ))
    (h : l.filter (fun kv => decide (kv.2 ≠ 0)) = []) :
    (l.map Prod.snd).sum = 0 := by
  induction l with
  | nil => simp
  | cons a rest ih =>
    simp only [List.filter_cons] at h
    rcases hd : decide (a.2 ≠ 0) with _ | _
    · rw [hd] at h
      have h0 : a.2 = 0 := by simpa using hd
      simp only [List.map_cons, List.sum_cons, h0, zero_add]
      exact ih (by simpa using h)
    · rw [hd] at h
      simp at h

/-- Total of the values when the nonzero filter leaves exactly one entry. -/
lemma total_of_filter_single (l : List (String × ℚ)) (kv0 : String × ℚ)
    (hf : l.filter (fun kv => decide (kv.2 ≠ 0)) = [kv0]) :
    (l.map Prod.snd).sum = kv0.2 := by
  induction l with
  | nil => simp at hf
  | cons a rest ih =>
    simp only [List.filter_cons] at hf
    rcases hd : decide (a.2 ≠ 0) with _ | _
    · rw [hd] at hf
      have h0 : a.2 = 0 := by simpa using hd
      simp only [List.map_cons, List.sum_cons, h0, zero_add]
      exact ih (by simpa using hf)
    · rw [hd] at hf
      simp only [if_true] at hf
      have ha : a = kv0 := (List.cons_eq_cons.mp hf).1
      have hrest : rest.filter (fun kv => decide (kv.2 ≠ 0)) = [] :=
        (List.cons_eq_cons.mp hf).2
      have hzero : (rest.map Prod.snd).sum = 0 := values_sum_of_filter_nil rest hrest
      simp only [List.map_cons, List.sum_cons, hzero, add_zero, ha]

lemma filter_values_sum_le (l : List (String × ℚ)) (p : String × ℚ → Bool)
    (h : ∀ kv ∈ l, 0 ≤ kv.2) :
    ((l.filter p).map Prod.snd).sum ≤ (l.map Prod.snd).sum := by
  induction l with
  | nil => simp
  | cons a rest ih =>
    have ha := h a (List.mem_cons_self a rest)
    have ihr := ih (fun x hx => h x (List.mem_cons_of_mem a hx))
    rcases hp : p a with _ | _
    · rw [List.filter_cons, hp]
      simp only [Bool.false_eq_true, if_false, List.map_cons, List.sum_cons]
      linarith
    · rw [List.filter_cons, hp]
      simp only [if_true, List.map_cons, List.sum_cons]
      linarith

/-- Claim C5: for a Thile payload with nonnegative group values, entropy is
the sum over the strictly positive values of (v / total) * log2 (total /
v); it is 0 when the total is 0 (no division is performed, each summand
takes its zero branch); it is nonnegative; and it is 0 exactly when at
most one group value is nonzero. -/
theorem C5_entropy (th : Thile) (h : ∀ kv ∈ th.groups, 0 ≤ kv.2) :
    th.entropy
      = ((th.groups.filter (fun kv => decide (0 < kv.2))).map (fun kv =>
          ((kv.2 : ℝ) / (th.total : ℝ)) * Real.logb 2 ((th.total : ℝ) / (kv.2 : ℝ)))).sum
    ∧ (th.total = 0 → th.entropy = 0)
    ∧ 0 ≤ th.entropy
    ∧ (th.entropy = 0 ↔ (th.groups.filter (fun kv => decide (kv.2 ≠ 0))).length ≤ 1) := by
  have hvals : ∀ v ∈ th.groups.map Prod.snd, (0 : ℚ) ≤ v := by
    intro v hv
    rcases List.mem_map.mp hv with ⟨kv, hkv, hkv2⟩
    exact hkv2 ▸ h kv hkv
  have hle : ∀ kv ∈ th.groups, kv.2 ≤ th.total := by
    intro kv hkv
    exact qsum_single_le _ hvals kv.2 (List.mem_map_of_mem Prod.snd hkv)
  have hnn : 0 ≤ th.entropy := by
    rw [entropy_eq_terms]
    apply rsum_nonneg
    intro x hx
    rcases List.mem_map.mp hx with ⟨kv, hkv, hkv2⟩
    exact hkv2 ▸ entTerm_nonneg (h kv hkv) (hle kv hkv)
  refine ⟨?_, ?_, hnn, ?_, ?_⟩
  · rw [entropy_eq_terms]
    exact terms_filter th.total th.groups h
  · intro h0
    rw [entropy_eq_terms]
    apply rsum_eq_zero
    intro x hx
    rcases List.mem_map.mp hx with ⟨kv, hkv, hkv2⟩
    have : kv.2 = 0 := le_antisymm (h0 ▸ hle kv hkv) (h kv hkv)
    rw [← hkv2, this]
    exact entTerm_zero th.total
  · -- entropy zero implies at most one nonzero group
    intro hent
    by_contra hlen
    push_neg at hlen
    rcases hfl : th.groups.filter (fun kv => decide (kv.2 ≠ 0)) with _ | ⟨kv1, tl⟩
    · rw [hfl] at hlen; simp at hlen
    rcases htl : tl with _ | ⟨kv2, rest⟩
    · rw [hfl, htl] at hlen; simp at hlen
    rw [htl] at hfl
    have h1 : kv1 ∈ th.groups ∧ kv1.2 ≠ 0 := by
      have : kv1 ∈ th.groups.filter (fun kv => decide (kv.2 ≠ 0)) := by
        rw [hfl]; exact List.mem_cons_self _ _
      have := List.mem_filter.mp this
      exact ⟨this.1, by simpa using this.2⟩
    have h2 : kv2 ∈ th.groups ∧ kv2.2 ≠ 0 := by
      have : kv2 ∈ th.groups.filter (fun kv => decide (kv.2 ≠ 0)) := by
        rw [hfl]; exact List.mem_cons_of_mem _ (List.mem_cons_self _ _)
      have := List.mem_filter.mp this
      exact ⟨this.1, by simpa using this.2⟩
    have hp1 : (0 : ℚ) < kv1.2 := lt_of_le_of_ne (h kv1 h1.1) (Ne.symm h1.2)
    have hp2 : (0 : ℚ) < kv2.2 := lt_of_le_of_ne (h kv2 h2.1) (Ne.symm h2.2)
    have hfsum : ((th.groups.filter (fun kv => decide (kv.2 ≠ 0))).map Prod.snd).sum
        ≤ th.total := filter_values_sum_le th.groups _ h
    have hrest : (0 : ℚ) ≤ (rest.map Prod.snd).sum := by
      apply qsum_nonneg
      intro v hv
      rcases List.mem_map.mp hv with ⟨kv, hkv, hkv2⟩
      have : kv ∈ th.groups.filter (fun kv => decide (kv.2 ≠ 0)) := by
        rw [hfl]
        exact List.mem_cons_of_mem _ (List.mem_cons_of_mem _ hkv)
      exact hkv2 ▸ h kv (List.mem_filter.mp this).1
    rw [hfl] at hfsum
    simp only [List.map_cons, List.sum_cons] at hfsum
    have hlt : kv1.2 < th.total := by linarith
    have hterm : 0 < entTerm th.total kv1.2 := entTerm_pos hp1 hlt
    have : 0 < th.entropy := by
      rw [entropy_eq_terms]
      apply rsum_pos_of_mem_pos _ _ (entTerm th.total kv1.2) _ hterm
      · intro x hx
        rcases List.mem_map.mp hx with ⟨kv, hkv, hkv2⟩
        exact hkv2 ▸ entTerm_nonneg (h kv hkv) (hle kv hkv)
      · exact List.mem_map_of_mem _ h1.1
    rw [hent] at this
    exact lt_irrefl 0 this
  · -- at most one nonzero group implies entropy zero
    intro hlen
    rcases hfl : th.groups.filter (fun kv => decide (kv.2 ≠ 0)) with _ | ⟨kv0, tl⟩
    · -- every value is zero
      rw [entropy_eq_terms]
      apply rsum_eq_zero
      intro x hx
      rcases List.mem_map.mp hx with ⟨kv, hkv, hkv2⟩
      have hz : kv.2 = 0 := by
        by_contra hne
        have : kv ∈ th.groups.filter (fun kv => decide (kv.2 ≠ 0)) :=
          List.mem_filter.mpr ⟨hkv, by simpa using hne⟩
        rw [hfl] at this
        simp at this
      rw [← hkv2, hz]
      exact entTerm_zero th.total
    · rcases htl : tl with _ | ⟨kv2, rest⟩
      · -- exactly one nonzero value, which then equals the total
        rw [htl] at hfl
        have htot : th.total = kv0.2 := total_of_filter_single th.groups kv0 hfl
        rw [entropy_eq_terms]
        apply rsum_eq_zero
        intro x hx
        rcases List.mem_map.mp hx with ⟨kv, hkv, hkv2⟩
        by_cases hz : kv.2 = 0
        · rw [← hkv2, hz]; exact entTerm_zero th.total
        · have : kv ∈ th.groups.filter (fun kv => decide (kv.2 ≠ 0)) :=
            List.mem_filter.mpr ⟨hkv, by simpa using hz⟩
          rw [hfl] at this
          have : kv = kv0 := by simpa using this
          rw [← hkv2, this, htot]
          exact entTerm_self kv0.2
      · rw [hfl, htl] at hlen
        simp at hlen

/-- Witness for C5 at a concrete payload with two groups. -/
theorem C5_entropy_wit :
    (∀ kv ∈ (Thile.mk [("a", 2), ("b", 0)] "u").groups, (0 : ℚ) ≤ kv.2)
    ∧ ((Thile.mk [("a", 2), ("b", 0)] "u").entropy = 0 ↔
        ((Thile.mk [("a", 2), ("b", 0)] "u").groups.filter
          (fun kv => decide (kv.2 ≠ 0))).length ≤ 1) :=
  ⟨by decide, (C5_entropy (Thile.mk [("a", 2), ("b", 0)] "u") (by decide)).2.2.2⟩

/-
Unfolding helpers for the Option-valued statistics.
-/

lemma foldlM_option_some {α β : Type} (g : β → α → Option β) (g2 : β → α → β)
    (l : List α) (h : ∀ b, ∀ a ∈ l, g b a = some (g2 b a)) (b0 : β) :
    l.foldlM g b0 = some (l.foldl g2 b0) := by
  induction l generalizing b0 with
  | nil => rfl
  | cons a rest ih =>
    show Option.bind (g b0 a) (fun b => rest.foldlM g b) = _
    rw [h b0 a (List.mem_cons_self a rest)]
    show rest.foldlM g (g2 b0 a) = _
    rw [ih (fun b x hx => h b x (List.mem_cons_of_mem a hx)) (g2 b0 a)]
    rfl

lemma foldlM_option_none {α β : Type} (g : β → α → Option β) (l : List α) (a : α)
    (ha : a ∈ l) (h : ∀ b, g b a = none) (b0 : β) :
    l.foldlM g b0 = none := by
  induction l generalizing b0 with
  | nil => simp at ha
  | cons x rest ih =>
    show Option.bind (g b0 x) (fun b => rest.foldlM g b) = none
    rcases List.mem_cons.mp ha with h1 | h1
    · rw [← h1, h b0]
      rfl
    · rcases hg : g b0 x with _ | b
      · rfl
      · exact ih h1 b

lemma foldl_add_sum {α : Type} (f : α → ℝ) (l : List α) (b0 : ℝ) :
    l.foldl (fun acc c => acc + f c) b0 = b0 + (l.map f).sum := by
  induction l generalizing b0 with
  | nil => simp
  | cons a rest ih =>
    simp only [List.foldl_cons, List.map_cons, List.sum_cons]
    rw [ih (b0 + f a)]
    ring

lemma node_weight_eval (t : Tree) (nid : String) (p n : TNode)
    (hp : t.parentOf nid = some p) (hn : t.get nid = some n) :
    node_weight t nid
      = some (if p.data.total = 0 then (0 : ℝ)
              else (n.data.total : ℝ) / (p.data.total : ℝ)) := by
  unfold node_weight
  rw [hp, hn]
  rfl

lemma node_diversity_eval (t : Tree) (nid : String) (p n : TNode)
    (hp : t.parentOf nid = some p) (hn : t.get nid = some n) :
    node_diversity t nid
      = some (if p.data.entropy = 0 then (0 : ℝ)
              else n.data.entropy / p.data.entropy) := by
  unfold node_diversity
  rw [hp, hn]
  rfl

lemma node_entdev_eval (t : Tree) (nid : String) (p n : TNode)
    (hp : t.parentOf nid = some p) (hn : t.get nid = some n) :
    node_entdev t nid
      = some (if p.data.entropy = 0 then (0 : ℝ)
              else (p.data.entropy - n.data.entropy) / p.data.entropy) := by
  unfold node_entdev
  rw [hp, hn]
  rfl

lemma theil_cmp_eval (t : Tree) (nid : String) (w e : ℝ)
    (hw : node_weight t nid = some w) (he : node_entdev t nid = some e) :
    theil_cmp t nid = some (w * e) := by
  unfold theil_cmp
  rw [hw, he]
  rfl

/-- theil at depth 0 is the sum of the child components. -/
lemma theil_zero_sum (t : Tree) (nid : String) (cs : List String) (f : String → ℝ)
    (hc : t.childrenOf nid = some cs)
    (hf : ∀ c ∈ cs, theil_cmp t c = some (f c)) :
    theil t nid 0 = some ((cs.map f).sum) := by
  unfold theil theilAux
  rw [hc]
  show cs.foldlM (fun acc c => Option.bind (theil_cmp t c) (fun x => some (acc + x))) 0
      = some ((cs.map f).sum)
  rw [foldlM_option_some _ (fun acc c => acc + f c) cs
    (by
      intro b c hcs
      rw [hf c hcs]
      rfl) 0]
  rw [foldl_add_sum, zero_add]

/-- theil at a positive depth is the sum over the children of the component
plus weight times diversity times the recursive theil. -/
lemma theil_succ_sum (t : Tree) (nid : String) (d : ℕ) (cs : List String)
    (f w dv th : String → ℝ)
    (hc : t.childrenOf nid = some cs)
    (hf : ∀ c ∈ cs, theil_cmp t c = some (f c))
    (hw : ∀ c ∈ cs, node_weight t c = some (w c))
    (hdv : ∀ c ∈ cs, node_diversity t c = some (dv c))
    (hth : ∀ c ∈ cs, theil t c d = some (th c)) :
    theil t nid (d + 1)
      = some ((cs.map (fun c => f c + w c * dv c * th c)).sum) := by
  unfold theil theilAux
  rw [hc]
  show cs.foldlM (fun acc c =>
      Option.bind (theil_cmp t c) (fun x =>
        Option.bind (node_weight t c) (fun w2 =>
          Option.bind (node_diversity t c) (fun dv2 =>
            Option.bind (theilAux t d c) (fun th2 =>
              some (acc + x + w2 * dv2 * th2)))))) 0
      = some ((cs.map (fun c => f c + w c * dv c * th c)).sum)
  rw [foldlM_option_some _ (fun acc c => acc + (f c + w c * dv c * th c)) cs
    (by
      intro b c hcs
      rw [hf c hcs, hw c hcs, hdv c hcs]
      have := hth c hcs
      unfold theil at this
      rw [this]
      show some (b + f c + w c * dv c * th c) = _
      rw [add_assoc]) 0]
  rw [foldl_add_sum, zero_add]

/-- theilSpec at a positive depth, the analogous unfolding without the
diversity factor. -/
lemma theilSpec_succ_sum (t : Tree) (nid : String) (d : ℕ) (cs : List String)
    (f w th : String → ℝ)
    (hc : t.childrenOf nid = some cs)
    (hf : ∀ c ∈ cs, theil_cmp t c = some (f c))
    (hw : ∀ c ∈ cs, node_weight t c = some (w c))
    (hth : ∀ c ∈ cs, theilSpec t c d = some (th c)) :
    theilSpec t nid (d + 1)
      = some ((cs.map (fun c => f c + w c * th c)).sum) := by
  unfold theilSpec theilSpecAux
  rw [hc]
  show cs.foldlM (fun acc c =>
      Option.bind (theil_cmp t c) (fun x =>
        Option.bind (node_weight t c) (fun w2 =>
          Option.bind (theilSpecAux t d c) (fun th2 =>
            some (acc + x + w2 * th2))))) 0
      = some ((cs.map (fun c => f c + w c * th c)).sum)
  rw [foldlM_option_some _ (fun acc c => acc + (f c + w c * th c)) cs
    (by
      intro b c hcs
      rw [hf c hcs, hw c hcs]
      have := hth c hcs
      unfold theilSpec at this
      rw [this]
      show some (b + f c + w c * th c) = _
      rw [add_assoc]) 0]
  rw [foldl_add_sum, zero_add]

/-- theilSpec at depth 0 agrees with theil at depth 0. -/
lemma theilSpec_zero (t : Tree) (nid : String) : theilSpec t nid 0 = theil t nid 0 := rfl

/-
A concrete worked example: three rows, two levels, four groups.  The tree
is produced by theilTree itself (proved below by evaluation), so every
counterexample below lives on a genuinely built, fully aggregated tree.
-/

def exRows : List Row :=
  [ [("l1", "A"), ("l2", "x"), ("g1", "2"), ("g2", "0"), ("g3", "0"), ("g4", "0")],
    [("l1", "A"), ("l2", "y"), ("g1", "0"), ("g2", "2"), ("g3", "0"), ("g4", "0")],
    [("l1", "B"), ("l2", "z"), ("g1", "0"), ("g2", "0"), ("g3", "2"), ("g4", "2")] ]

def exG : List String := ["g1", "g2", "g3", "g4"]

def nRpre : TNode := ⟨"R", none, ["R|A", "R|B"], ⟨[], "R"⟩⟩

def nRApre : TNode := ⟨"R|A", some "R", ["R|A|x", "R|A|y"], ⟨[], "A"⟩⟩

def nRBpre : TNode := ⟨"R|B", some "R", ["R|B|z"], ⟨[], "B"⟩⟩

def nRAx : TNode :=
  ⟨"R|A|x", some "R|A", [], ⟨[("g1", 2), ("g2", 0), ("g3", 0), ("g4", 0)], "x"⟩⟩

def nRAy : TNode :=
  ⟨"R|A|y", some "R|A", [], ⟨[("g1", 0), ("g2", 2), ("g3", 0), ("g4", 0)], "y"⟩⟩

def nRBz : TNode :=
  ⟨"R|B|z", some "R|B", [], ⟨[("g1", 0), ("g2", 0), ("g3", 2), ("g4", 2)], "z"⟩⟩

def exTreePre : Tree := ⟨[nRpre, nRApre, nRAx, nRAy, nRBpre, nRBz]⟩

def nR : TNode :=
  ⟨"R", none, ["R|A", "R|B"], ⟨[("g1", 2), ("g2", 2), ("g3", 2), ("g4", 2)], "R"⟩⟩

def nRA : TNode :=
  ⟨"R|A", some "R", ["R|A|x", "R|A|y"], ⟨[("g1", 2), ("g2", 2), ("g3", 0), ("g4", 0)], "A"⟩⟩

def nRB : TNode :=
  ⟨"R|B", some "R", ["R|B|z"], ⟨[("g1", 0), ("g2", 0), ("g3", 2), ("g4", 2)], "B"⟩⟩

def exTree : Tree := ⟨[nR, nRA, nRAx, nRAy, nRB, nRBz]⟩

set_option maxHeartbeats 2000000 in
lemma exTreePre_eq :
    tree_structure exRows "R" ["l1", "l2"] exG = some exTreePre := by
  simp [tree_structure, processRow, leafData, rowLoop, Tree.create_node,
    Tree.contains, Tree.get, pyfloat, pyfloatCore, splitDot, natOfDigits, allDigits,
    rowGet, dictFind, exRows, exG, exTreePre, nRpre, nRApre, nRBpre, nRAx, nRAy, nRBz,
    List.foldlM, List.find?, List.map, List.all, List.isEmpty, Option.bind, Option.map,
    List.mapM, List.mapM.loop]

set_option maxHeartbeats 4000000 in
lemma exTree_eq : theilTree exRows "R" ["l1", "l2"] exG = some exTree := by
  simp [theilTree, tree_structure, processRow, leafData, rowLoop, Tree.create_node,
    Tree.contains, Tree.get, pyfloat, pyfloatCore, splitDot, natOfDigits, allDigits,
    rowGet, dictFind, exRows, exG, exTree, nR, nRA, nRB, nRAx, nRAy, nRBz,
    List.foldlM, List.find?, List.map, List.all, List.isEmpty, Option.bind, Option.map,
    List.mapM, List.mapM.loop, leaf_up_tree, Tree.pathsToLeaves, Tree.leaves, ancPath,
    processPath, aggStep, deepcopy_node_data, inc_dict, Tree.setGroups, List.filter,
    List.filterMap]

/-
Entropy values of the payloads occurring in the example.
-/

lemma logb_two_two : Real.logb 2 2 = 1 := Real.logb_self_eq_one (by norm_num)

lemma logb_two_four : Real.logb 2 4 = 2 := by
  have h4 : (4 : ℝ) = 2 ^ (2 : ℕ) := by norm_num
  rw [h4, Real.logb_pow, logb_two_two]
  norm_num

lemma entTerm_val (T v : ℚ) (hv : v ≠ 0) :
    entTerm T v = ((v : ℝ) / (T : ℝ)) * Real.logb 2 ((T : ℝ) / (v : ℝ)) :=
  if_neg hv

lemma ent2222 (u : String) :
    (Thile.mk [("g1", 2), ("g2", 2), ("g3", 2), ("g4", 2)] u).entropy = 2 := by
  rw [entropy_eq_terms]
  have ht : (Thile.mk [("g1", 2), ("g2", 2), ("g3", 2), ("g4", 2)] u).total = 8 := by norm_num [Thile.total]
  rw [ht]
  show (List.map (fun kv => entTerm 8 kv.2)
    [("g1", (2 : ℚ)), ("g2", 2), ("g3", 2), ("g4", 2)]).sum = 2
  simp only [List.map_cons, List.map_nil, List.sum_cons, List.sum_nil]
  rw [entTerm_val 8 2 (by norm_num)]
  have h1 : ((2 : ℚ) : ℝ) / ((8 : ℚ) : ℝ) = 1 / 4 := by push_cast; norm_num
  have h2 : ((8 : ℚ) : ℝ) / ((2 : ℚ) : ℝ) = 4 := by push_cast; norm_num
  rw [h1, h2, logb_two_four]
  ring

lemma ent2200 (u : String) :
    (Thile.mk [("g1", 2), ("g2", 2), ("g3", 0), ("g4", 0)] u).entropy = 1 := by
  rw [entropy_eq_terms]
  have ht : (Thile.mk [("g1", 2), ("g2", 2), ("g3", 0), ("g4", 0)] u).total = 4 := by norm_num [Thile.total]
  rw [ht]
  show (List.map (fun kv => entTerm 4 kv.2)
    [("g1", (2 : ℚ)), ("g2", 2), ("g3", 0), ("g4", 0)]).sum = 1
  simp only [List.map_cons, List.map_nil, List.sum_cons, List.sum_nil]
  rw [entTerm_val 4 2 (by norm_num), entTerm_zero]
  have h1 : ((2 : ℚ) : ℝ) / ((4 : ℚ) : ℝ) = 1 / 2 := by push_cast; norm_num
  have h2 : ((4 : ℚ) : ℝ) / ((2 : ℚ) : ℝ) = 2 := by push_cast; norm_num
  rw [h1, h2, logb_two_two]
  ring

lemma ent0022 (u : String) :
    (Thile.mk [("g1", 0), ("g2", 0), ("g3", 2), ("g4", 2)] u).entropy = 1 := by
  rw [entropy_eq_terms]
  have ht : (Thile.mk [("g1", 0), ("g2", 0), ("g3", 2), ("g4", 2)] u).total = 4 := by norm_num [Thile.total]
  rw [ht]
  show (List.map (fun kv => entTerm 4 kv.2)
    [("g1", (0 : ℚ)), ("g2", 0), ("g3", 2), ("g4", 2)]).sum = 1
  simp only [List.map_cons, List.map_nil, List.sum_cons, List.sum_nil]
  rw [entTerm_val 4 2 (by norm_num), entTerm_zero]
  have h1 : ((2 : ℚ) : ℝ) / ((4 : ℚ) : ℝ) = 1 / 2 := by push_cast; norm_num
  have h2 : ((4 : ℚ) : ℝ) / ((2 : ℚ) : ℝ) = 2 := by push_cast; norm_num
  rw [h1, h2, logb_two_two]
  ring

lemma ent2000 (u : String) :
    (Thile.mk [("g1", 2), ("g2", 0), ("g3", 0), ("g4", 0)] u).entropy = 0 := by
  rw [entropy_eq_terms]
  have ht : (Thile.mk [("g1", 2), ("g2", 0), ("g3", 0), ("g4", 0)] u).total = 2 := by norm_num [Thile.total]
  rw [ht]
  show (List.map (fun kv => entTerm 2 kv.2)
    [("g1", (2 : ℚ)), ("g2", 0), ("g3", 0), ("g4", 0)]).sum = 0
  simp only [List.map_cons, List.map_nil, List.sum_cons, List.sum_nil]
  rw [entTerm_self, entTerm_zero]
  ring

lemma ent0200 (u : String) :
    (Thile.mk [("g1", 0), ("g2", 2), ("g3", 0), ("g4", 0)] u).entropy = 0 := by
  rw [entropy_eq_terms]
  have ht : (Thile.mk [("g1", 0), ("g2", 2), ("g3", 0), ("g4", 0)] u).total = 2 := by norm_num [Thile.total]
  rw [ht]
  show (List.map (fun kv => entTerm 2 kv.2)
    [("g1", (0 : ℚ)), ("g2", 2), ("g3", 0), ("g4", 0)]).sum = 0
  simp only [List.map_cons, List.map_nil, List.sum_cons, List.sum_nil]
  rw [entTerm_self, entTerm_zero]
  ring

/-
Lookup facts and statistic values on the example tree.
-/

lemma tR : nR.data.total = 8 := by norm_num [nR, Thile.total]

lemma tRA : nRA.data.total = 4 := by norm_num [nRA, Thile.total]

lemma tRB : nRB.data.total = 4 := by norm_num [nRB, Thile.total]

lemma tRAx : nRAx.data.total = 2 := by norm_num [nRAx, Thile.total]

lemma tRAy : nRAy.data.total = 2 := by norm_num [nRAy, Thile.total]

lemma tRBz : nRBz.data.total = 4 := by norm_num [nRBz, Thile.total]

lemma eR : nR.data.entropy = 2 := ent2222 ("R")

lemma eRA : nRA.data.entropy = 1 := ent2200 ("A")

lemma eRB : nRB.data.entropy = 1 := ent0022 ("B")

lemma eRAx : nRAx.data.entropy = 0 := ent2000 ("x")

lemma eRAy : nRAy.data.entropy = 0 := ent0200 ("y")

lemma eRBz : nRBz.data.entropy = 1 := ent0022 ("z")

lemma wRA : node_weight exTree ("R|A") = some (1 / 2) := by
  rw [node_weight_eval exTree ("R|A") nR nRA (by rfl) (by rfl), tR, tRA]
  norm_num

lemma wRB : node_weight exTree ("R|B") = some (1 / 2) := by
  rw [node_weight_eval exTree ("R|B") nR nRB (by rfl) (by rfl), tR, tRB]
  norm_num

lemma wRAx : node_weight exTree ("R|A|x") = some (1 / 2) := by
  rw [node_weight_eval exTree ("R|A|x") nRA nRAx (by rfl) (by rfl), tRA, tRAx]
  norm_num

lemma wRAy : node_weight exTree ("R|A|y") = some (1 / 2) := by
  rw [node_weight_eval exTree ("R|A|y") nRA nRAy (by rfl) (by rfl), tRA, tRAy]
  norm_num

lemma wRBz : node_weight exTree ("R|B|z") = some 1 := by
  rw [node_weight_eval exTree ("R|B|z") nRB nRBz (by rfl) (by rfl), tRB, tRBz]
  norm_num

lemma edRA : node_entdev exTree ("R|A") = some (1 / 2) := by
  rw [node_entdev_eval exTree ("R|A") nR nRA (by rfl) (by rfl), eR, eRA]
  norm_num

lemma edRB : node_entdev exTree ("R|B") = some (1 / 2) := by
  rw [node_entdev_eval exTree ("R|B") nR nRB (by rfl) (by rfl), eR, eRB]
  norm_num

lemma edRAx : node_entdev exTree ("R|A|x") = some 1 := by
  rw [node_entdev_eval exTree ("R|A|x") nRA nRAx (by rfl) (by rfl), eRA, eRAx]
  norm_num

lemma edRAy : node_entdev exTree ("R|A|y") = some 1 := by
  rw [node_entdev_eval exTree ("R|A|y") nRA nRAy (by rfl) (by rfl), eRA, eRAy]
  norm_num

lemma edRBz : node_entdev exTree ("R|B|z") = some 0 := by
  rw [node_entdev_eval exTree ("R|B|z") nRB nRBz (by rfl) (by rfl), eRB, eRBz]
  norm_num

lemma dvRA : node_diversity exTree ("R|A") = some (1 / 2) := by
  rw [node_diversity_eval exTree ("R|A") nR nRA (by rfl) (by rfl), eR, eRA]
  norm_num

lemma dvRB : node_diversity exTree ("R|B") = some (1 / 2) := by
  rw [node_diversity_eval exTree ("R|B") nR nRB (by rfl) (by rfl), eR, eRB]
  norm_num

lemma cmpRA : theil_cmp exTree ("R|A") = some (1 / 4) := by
  rw [theil_cmp_eval exTree ("R|A") (1 / 2) (1 / 2) wRA edRA]
  norm_num

lemma cmpRB : theil_cmp exTree ("R|B") = some (1 / 4) := by
  rw [theil_cmp_eval exTree ("R|B") (1 / 2) (1 / 2) wRB edRB]
  norm_num

lemma cmpRAx : theil_cmp exTree ("R|A|x") = some (1 / 2) := by
  rw [theil_cmp_eval exTree ("R|A|x") (1 / 2) 1 wRAx edRAx]
  norm_num

lemma cmpRAy : theil_cmp exTree ("R|A|y") = some (1 / 2) := by
  rw [theil_cmp_eval exTree ("R|A|y") (1 / 2) 1 wRAy edRAy]
  norm_num

lemma cmpRBz : theil_cmp exTree ("R|B|z") = some 0 := by
  rw [theil_cmp_eval exTree ("R|B|z") 1 0 wRBz edRBz]
  norm_num

lemma thRA0 : theil exTree ("R|A") 0 = some 1 := by
  rw [theil_zero_sum exTree ("R|A") ["R|A|x", "R|A|y"] (fun _ => 1 / 2) (by rfl)
    (by
      intro c hc
      simp only [List.mem_cons, List.not_mem_nil, or_false] at hc
      rcases hc with rfl | rfl
      · exact cmpRAx
      · exact cmpRAy)]
  norm_num

lemma thRB0 : theil exTree ("R|B") 0 = some 0 := by
  rw [theil_zero_sum exTree ("R|B") ["R|B|z"] (fun _ => 0) (by rfl)
    (by
      intro c hc
      simp only [List.mem_cons, List.not_mem_nil, or_false] at hc
      rcases hc with rfl
      · exact cmpRBz)]
  norm_num

lemma thR0 : theil exTree ("R") 0 = some (1 / 2) := by
  rw [theil_zero_sum exTree ("R") ["R|A", "R|B"] (fun _ => 1 / 4) (by rfl)
    (by
      intro c hc
      simp only [List.mem_cons, List.not_mem_nil, or_false] at hc
      rcases hc with rfl | rfl
      · exact cmpRA
      · exact cmpRB)]
  norm_num

lemma thR1 : theil exTree ("R") 1 = some (3 / 4) := by
  rw [theil_succ_sum exTree ("R") 0 ["R|A", "R|B"] (fun _ => 1 / 4) (fun _ => 1 / 2)
    (fun _ => 1 / 2) (fun c => if c = "R|A" then 1 else 0) (by rfl)
    (by
      intro c hc
      simp only [List.mem_cons, List.not_mem_nil, or_false] at hc
      rcases hc with rfl | rfl
      · exact cmpRA
      · exact cmpRB)
    (by
      intro c hc
      simp only [List.mem_cons, List.not_mem_nil, or_false] at hc
      rcases hc with rfl | rfl
      · exact wRA
      · exact wRB)
    (by
      intro c hc
      simp only [List.mem_cons, List.not_mem_nil, or_false] at hc
      rcases hc with rfl | rfl
      · exact dvRA
      · exact dvRB)
    (by
      intro c hc
      simp only [List.mem_cons, List.not_mem_nil, or_false] at hc
      rcases hc with rfl | rfl
      · simpa using thRA0
      · simpa using thRB0)]
  simp
  norm_num

lemma thspecR1 : theilSpec exTree ("R") 1 = some 1 := by
  rw [theilSpec_succ_sum exTree ("R") 0 ["R|A", "R|B"] (fun _ => 1 / 4) (fun _ => 1 / 2)
    (fun c => if c = "R|A" then 1 else 0) (by rfl)
    (by
      intro c hc
      simp only [List.mem_cons, List.not_mem_nil, or_false] at hc
      rcases hc with rfl | rfl
      · exact cmpRA
      · exact cmpRB)
    (by
      intro c hc
      simp only [List.mem_cons, List.not_mem_nil, or_false] at hc
      rcases hc with rfl | rfl
      · exact wRA
      · exact wRB)
    (by
      intro c hc
      simp only [List.mem_cons, List.not_mem_nil, or_false] at hc
      rcases hc with rfl | rfl
      · rw [theilSpec_zero]
        simpa using thRA0
      · rw [theilSpec_zero]
        simpa using thRB0)]
  simp
  norm_num

/-- Claim C1, counterexample: on a tree built and aggregated by theilTree
itself, theil at the root with one recursion gives 3/4, while the formula
of the claim (recursive term nodeWeight(child) * theil(child, d-1) with no
other factor, theilSpec) gives 1. -/
theorem C1_cex :
    theilTree exRows ("R") ["l1", "l2"] exG = some exTree
    ∧ theil exTree ("R") 1 = some (3 / 4)
    ∧ theilSpec exTree ("R") 1 = some 1
    ∧ (3 / 4 : ℝ) ≠ 1 :=
  ⟨exTree_eq, thR1, thspecR1, by norm_num⟩

/-- Claim C1, amended: theil at depth 0 is the sum over the children of
theilComponent(child); at depth d+1 it is the sum over the children of
theilComponent(child) plus nodeWeight(child) * nodeDiversity(child) *
theil(tree, child, d) — the recursive term carries the additional
nodeDiversity factor that the claim omitted. -/
theorem C1_amended (t : Tree) (nid : String) (d : ℕ) (cs : List String)
    (f w dv th : String → ℝ)
    (hc : t.childrenOf nid = some cs)
    (hf : ∀ c ∈ cs, theil_cmp t c = some (f c))
    (hw : ∀ c ∈ cs, node_weight t c = some (w c))
    (hdv : ∀ c ∈ cs, node_diversity t c = some (dv c))
    (hth : ∀ c ∈ cs, theil t c d = some (th c)) :
    theil t nid 0 = some ((cs.map f).sum)
    ∧ theil t nid (d + 1)
        = some ((cs.map (fun c => f c + w c * dv c * th c)).sum) :=
  ⟨theil_zero_sum t nid cs f hc hf,
   theil_succ_sum t nid d cs f w dv th hc hf hw hdv hth⟩

/-- Witness for C1_amended at the example tree root. -/
theorem C1_amended_wit :
    theil exTree ("R") 0 = some (((["R|A", "R|B"]).map (fun _ => (1 : ℝ) / 4)).sum)
    ∧ theil exTree ("R") 1
        = some (((["R|A", "R|B"]).map (fun c => (1 : ℝ) / 4
            + 1 / 2 * (1 / 2) * (if c = "R|A" then (1 : ℝ) else 0))).sum) :=
  C1_amended exTree ("R") 0 ["R|A", "R|B"] (fun _ => 1 / 4) (fun _ => 1 / 2)
    (fun _ => 1 / 2) (fun c => if c = "R|A" then 1 else 0) (by rfl)
    (by
      intro c hc
      simp only [List.mem_cons, List.not_mem_nil, or_false] at hc
      rcases hc with rfl | rfl
      · exact cmpRA
      · exact cmpRB)
    (by
      intro c hc
      simp only [List.mem_cons, List.not_mem_nil, or_false] at hc
      rcases hc with rfl | rfl
      · exact wRA
      · exact wRB)
    (by
      intro c hc
      simp only [List.mem_cons, List.not_mem_nil, or_false] at hc
      rcases hc with rfl | rfl
      · exact dvRA
      · exact dvRB)
    (by
      intro c hc
      simp only [List.mem_cons, List.not_mem_nil, or_false] at hc
      rcases hc with rfl | rfl
      · simpa using thRA0
      · simpa using thRB0)

/-- Claim C4: for a node whose parent lookup succeeds, node_weight returns
0 when the parent total is exactly 0 and the total ratio otherwise, and
node_entdev returns 0 when the parent entropy is exactly 0 and the
relative entropy drop otherwise; in every case a value is returned, never
an exception. -/
theorem C4_zero_guard (t : Tree) (nid : String) (p n : TNode)
    (hp : t.parentOf nid = some p) (hn : t.get nid = some n) :
    (p.data.total = 0 → node_weight t nid = some 0)
    ∧ (p.data.total ≠ 0 →
        node_weight t nid = some ((n.data.total : ℝ) / (p.data.total : ℝ)))
    ∧ (p.data.entropy = 0 → node_entdev t nid = some 0)
    ∧ (p.data.entropy ≠ 0 →
        node_entdev t nid
          = some ((p.data.entropy - n.data.entropy) / p.data.entropy)) := by
  have h1 := node_weight_eval t nid p n hp hn
  have h2 := node_entdev_eval t nid p n hp hn
  refine ⟨fun h0 => ?_, fun h0 => ?_, fun h0 => ?_, fun h0 => ?_⟩
  · rw [h1, if_pos h0]
  · rw [h1, if_neg h0]
  · rw [h2, if_pos h0]
  · rw [h2, if_neg h0]

def ztA : TNode := ⟨"r", none, ["r|a"], ⟨[("g", 0)], "r"⟩⟩

def ztB : TNode := ⟨"r|a", some "r", [], ⟨[("g", 0)], "a"⟩⟩

def ztTree : Tree := ⟨[ztA, ztB]⟩

lemma ztA_entropy : ztA.data.entropy = 0 := by
  rw [entropy_eq_terms]
  show (List.map (fun kv => entTerm ztA.data.total kv.2) [("g", (0 : ℚ))]).sum = 0
  simp [entTerm_zero]

/-- Witness for C4 on a tree whose root has total 0 and entropy 0. -/
theorem C4_zero_guard_wit :
    node_weight ztTree ("r|a") = some 0 ∧ node_entdev ztTree ("r|a") = some 0 :=
  ⟨(C4_zero_guard ztTree ("r|a") ztA ztB (by rfl) (by rfl)).1
      (by norm_num [ztA, Thile.total]),
   (C4_zero_guard ztTree ("r|a") ztA ztB (by rfl) (by rfl)).2.2.1 ztA_entropy⟩

/-- Claim C8: theil on a node with no children returns 0 at every depth;
the recursion terminates at leaves with the additive identity. -/
theorem C8_leaf_termination (t : Tree) (nid : String) (n : TNode) (d : ℕ)
    (hn : t.get nid = some n) (hleaf : n.children = []) :
    theil t nid d = some 0 := by
  have hc : t.childrenOf nid = some [] := by
    simp [Tree.childrenOf, hn, hleaf]
  cases d with
  | zero =>
    unfold theil theilAux
    rw [hc]
    rfl
  | succ k =>
    unfold theil theilAux
    rw [hc]
    rfl

/-- Witness for C8 at a leaf of the example tree, depth 5. -/
theorem C8_leaf_termination_wit : theil exTree ("R|A|x") 5 = some 0 :=
  C8_leaf_termination exTree ("R|A|x") nRAx 5 (by rfl) (by rfl)

/-- Claim C10: calling node_weight, node_entdev or theil_cmp on the root
fails (none models the AttributeError raised when the root parent None is
dereferenced). -/
theorem C10_root_fails (t : Tree) (nid : String) (n : TNode)
    (hn : t.get nid = some n) (hroot : n.parent = none) :
    node_weight t nid = none ∧ node_entdev t nid = none
    ∧ theil_cmp t nid = none := by
  have hp : t.parentOf nid = none := by
    simp [Tree.parentOf, hn, hroot]
  refine ⟨?_, ?_, ?_⟩
  · unfold node_weight
    rw [hp]
    rfl
  · unfold node_entdev
    rw [hp]
    rfl
  · unfold theil_cmp node_weight
    rw [hp]
    rfl

/-- Witness for C10 at the root of the example tree. -/
theorem C10_root_fails_wit :
    node_weight exTree ("R") = none ∧ node_entdev exTree ("R") = none
    ∧ theil_cmp exTree ("R") = none :=
  C10_root_fails exTree ("R") nR (by rfl) (by rfl)

/-
The change-decomposition defect (claim C9): a concrete two-stage tree.
-/

lemma entPair (a : ℚ) (ha : 0 < a) (k1 k2 u : String) :
    (Thile.mk [(k1, a), (k2, a)] u).entropy = 1 := by
  rw [entropy_eq_terms]
  have ht : (Thile.mk [(k1, a), (k2, a)] u).total = 2 * a := by
    simp only [Thile.total, List.map_cons, List.map_nil, List.sum_cons, List.sum_nil]
    ring
  rw [ht]
  show (List.map (fun kv => entTerm (2 * a) kv.2) [(k1, a), (k2, a)]).sum = 1
  simp only [List.map_cons, List.map_nil, List.sum_cons, List.sum_nil]
  rw [entTerm_val (2 * a) a (ne_of_gt ha)]
  have haR : (0 : ℝ) < (a : ℝ) := by exact_mod_cast ha
  have h1 : ((a : ℚ) : ℝ) / (((2 * a : ℚ)) : ℝ) = 1 / 2 := by
    push_cast
    rw [div_eq_iff (by positivity)]
    ring
  have h2 : (((2 * a : ℚ)) : ℝ) / ((a : ℚ) : ℝ) = 2 := by
    push_cast
    rw [div_eq_iff (ne_of_gt haR)]
  rw [h1, h2, logb_two_two]
  ring

def c9Rows : List Row :=
  [ [("y", "0"), ("c", "A"), ("g1", "1"), ("g2", "1")],
    [("y", "1"), ("c", "A"), ("g1", "1"), ("g2", "1")] ]

def m0 : TNode := ⟨"R", none, ["R|0", "R|1"], ⟨[("g1", 2), ("g2", 2)], "R"⟩⟩

def mS0 : TNode := ⟨"R|0", some "R", ["R|0|A"], ⟨[("g1", 1), ("g2", 1)], "0"⟩⟩

def mS0A : TNode := ⟨"R|0|A", some "R|0", [], ⟨[("g1", 1), ("g2", 1)], "A"⟩⟩

def mS1 : TNode := ⟨"R|1", some "R", ["R|1|A"], ⟨[("g1", 1), ("g2", 1)], "1"⟩⟩

def mS1A : TNode := ⟨"R|1|A", some "R|1", [], ⟨[("g1", 1), ("g2", 1)], "A"⟩⟩

def c9Tree : Tree := ⟨[m0, mS0, mS0A, mS1, mS1A]⟩

set_option maxHeartbeats 4000000 in
lemma c9Tree_eq : theilTree c9Rows ("R") ["y", "c"] ["g1", "g2"] = some c9Tree := by
  simp [theilTree, tree_structure, processRow, leafData, rowLoop, Tree.create_node,
    Tree.contains, Tree.get, pyfloat, pyfloatCore, splitDot, natOfDigits, allDigits,
    rowGet, dictFind, c9Rows, c9Tree, m0, mS0, mS0A, mS1, mS1A,
    List.foldlM, List.find?, List.map, List.all, List.isEmpty, Option.bind, Option.map,
    List.mapM, List.mapM.loop, leaf_up_tree, Tree.pathsToLeaves, Tree.leaves, ancPath,
    processPath, aggStep, deepcopy_node_data, inc_dict, Tree.setGroups, List.filter,
    List.filterMap]
  norm_num

lemma e_mS0 : mS0.data.entropy = 1 := entPair 1 (by norm_num) ("g1") ("g2") ("0")

lemma e_mS1 : mS1.data.entropy = 1 := entPair 1 (by norm_num) ("g1") ("g2") ("1")

lemma e_mS0A : mS0A.data.entropy = 1 := entPair 1 (by norm_num) ("g1") ("g2") ("A")

lemma e_mS1A : mS1A.data.entropy = 1 := entPair 1 (by norm_num) ("g1") ("g2") ("A")

lemma t_mS0 : mS0.data.total = 2 := by norm_num [mS0, Thile.total]

lemma t_mS1 : mS1.data.total = 2 := by norm_num [mS1, Thile.total]

lemma t_mS0A : mS0A.data.total = 2 := by norm_num [mS0A, Thile.total]

lemma t_mS1A : mS1A.data.total = 2 := by norm_num [mS1A, Thile.total]

lemma w_mS0A : node_weight c9Tree ("R|0|A") = some 1 := by
  rw [node_weight_eval c9Tree ("R|0|A") mS0 mS0A (by rfl) (by rfl), t_mS0, t_mS0A]
  norm_num

lemma ed_mS0A : node_entdev c9Tree ("R|0|A") = some 0 := by
  rw [node_entdev_eval c9Tree ("R|0|A") mS0 mS0A (by rfl) (by rfl), e_mS0, e_mS0A]
  norm_num

lemma cc_c9 : change_comps c9Tree ("R|1|A") = some (0, 0) := by
  simp only [change_comps,
    show c9Tree.get ("R|1|A") = some mS1A from rfl,
    show c9Tree.parentOf ("R|1|A") = some mS1 from rfl,
    show mtree_root c9Tree ("R|1|A") = some ("R") from rfl,
    show mtree_stage c9Tree ("R|1|A") = some ("1") from rfl,
    show mtree_nid c9Tree ("R|1|A") = some ("A") from rfl,
    show pyint ("1") = some 1 from rfl,
    show String.intercalate ("|") ["R", toString ((1 : ℤ) - 1), "A"] = "R|0|A" from rfl,
    show String.intercalate ("|") ["R", toString (0 : ℤ), "A"] = "R|0|A" from rfl,
    show c9Tree.get ("R|0|A") = some mS0A from rfl,
    show c9Tree.parentOf ("R|0|A") = some mS0 from rfl,
    w_mS0A, ed_mS0A, e_mS0, e_mS1, e_mS0A, e_mS1A, t_mS0, t_mS1, t_mS0A, t_mS1A,
    Option.bind_eq_bind, Option.some_bind]
  norm_num

/-- Claim C9: theil_changes fails with a TypeError on any node with at
least one child on which change_comps succeeds: the tuple returned by
change_comps is added to the numeric accumulator 0, and number + tuple is
a type error (none in the dynamic-value model pyAdd). -/
theorem C9_tuple_error (t : Tree) (nid c : String) (rest : List String) (pr : ℝ × ℝ)
    (hc : t.childrenOf nid = some (c :: rest))
    (hcc : change_comps t c = some pr) :
    theil_changes t nid = none := by
  unfold theil_changes
  rw [hc]
  show Option.bind
      (Option.bind (change_comps t c)
        (fun pr2 => pyAdd (PyVal.num 0) (PyVal.pair pr2.1 pr2.2)))
      (fun b => rest.foldlM (fun acc c2 =>
        Option.bind (change_comps t c2)
          (fun pr2 => pyAdd acc (PyVal.pair pr2.1 pr2.2))) b) = none
  rw [hcc]
  rfl

/-- Witness for C9 on the two-stage tree, at the stage-1 branch node. -/
theorem C9_tuple_error_wit : theil_changes c9Tree ("R|1") = none :=
  C9_tuple_error c9Tree ("R|1") ("R|1|A") [] (0, 0) (by rfl) cc_c9

/-
Duplicate rows (claim C3) and unparseable group values (claim C7).
-/

def dupRows : List Row :=
  [ [("l1", "A"), ("l2", "x"), ("g", "1")],
    [("l1", "A"), ("l2", "x"), ("g", "1")] ]

def dR : TNode := ⟨"R", none, ["R|A"], ⟨[("g", 1)], "R"⟩⟩

def dRA : TNode := ⟨"R|A", some "R", ["R|A|x"], ⟨[("g", 1)], "A"⟩⟩

def dRAx : TNode := ⟨"R|A|x", some "R|A", [], ⟨[("g", 1)], "x"⟩⟩

def dupTree : Tree := ⟨[dR, dRA, dRAx]⟩

set_option maxHeartbeats 2000000 in
lemma dupTree_eq : theilTree dupRows ("R") ["l1", "l2"] ["g"] = some dupTree := by
  simp [theilTree, tree_structure, processRow, leafData, rowLoop, Tree.create_node,
    Tree.contains, Tree.get, pyfloat, pyfloatCore, splitDot, natOfDigits, allDigits,
    rowGet, dictFind, dupRows, dupTree, dR, dRA, dRAx,
    List.foldlM, List.find?, List.map, List.all, List.isEmpty, Option.bind, Option.map,
    List.mapM, List.mapM.loop, leaf_up_tree, Tree.pathsToLeaves, Tree.leaves, ancPath,
    processPath, aggStep, deepcopy_node_data, inc_dict, Tree.setGroups, List.filter,
    List.filterMap]

/-- Claim C3, counterexample: two identical rows reach the same leaf, yet
the built leaf keeps the first row value 1 instead of the elementwise sum
2 that the claim demands. -/
theorem C3_cex :
    theilTree dupRows ("R") ["l1", "l2"] ["g"] = some dupTree
    ∧ (dupTree.get ("R|A|x")).map (fun n => n.data.groups) = some [("g", 1)]
    ∧ ([("g", (1 : ℚ))] : Dict) ≠ [("g", 2)] :=
  ⟨dupTree_eq, by rfl, by decide⟩

/-- The successive node identifiers a row builds below a starting node. -/
def rowNids (row : Row) : String → List String → Option (List String)
  | _, [] => some []
  | nid, lv :: rest =>
    (rowGet row lv).bind (fun v =>
      (rowNids row (nid ++ "|" ++ v) rest).map (fun l => (nid ++ "|" ++ v) :: l))

lemma rowLoop_noop (row : Row) (ld : Dict) (levels : List String) :
    ∀ (nid : String) (t : Tree) (ids : List String),
      rowNids row nid levels = some ids →
      (∀ i ∈ ids, t.contains i = true) →
      rowLoop row ld t nid levels = some t := by
  induction levels with
  | nil =>
    intro nid t ids _ _
    rfl
  | cons lv rest ih =>
    intro nid t ids hids hcont
    unfold rowNids at hids
    rcases hv : rowGet row lv with _ | v
    · rw [hv] at hids
      simp at hids
    · rw [hv] at hids
      simp only [Option.bind_eq_bind, Option.some_bind] at hids
      rcases hrest : rowNids row (nid ++ "|" ++ v) rest with _ | ids2
      · rw [hrest] at hids
        simp at hids
      · rw [hrest] at hids
        have hidseq : (nid ++ "|" ++ v) :: ids2 = ids := Option.some.inj hids
        have hhead : t.contains (nid ++ "|" ++ v) = true := by
          apply hcont
          rw [← hidseq]
          exact List.mem_cons_self _ _
        unfold rowLoop
        rw [hv]
        simp only [Option.bind_eq_bind, Option.some_bind, hhead, if_true]
        exact ih (nid ++ "|" ++ v) t ids2 hrest (fun i hi => by
          apply hcont
          rw [← hidseq]
          exact List.mem_cons_of_mem _ hi)

/-- Claim C3, amended: a row whose full level path already exists in the
tree (in particular a duplicate of an earlier row) leaves the tree
entirely unchanged once its leaf payload parses: the later row group
values are discarded, not added, so the leaf keeps the first row values. -/
theorem C3_amended (root : String) (levels groups : List String) (t : Tree)
    (row : Row) (ids : List String) (ld : Dict)
    (hids : rowNids row root levels = some ids)
    (hcont : ∀ i ∈ ids, t.contains i = true)
    (hld : leafData row groups = some ld) :
    processRow root levels groups t row = some t := by
  unfold processRow
  rw [hld]
  simp only [Option.bind_eq_bind, Option.some_bind]
  exact rowLoop_noop row ld levels root t ids hids hcont

/-- Witness for C3_amended: reprocessing the duplicate row on the built
tree is the identity. -/
theorem C3_amended_wit :
    processRow ("R") ["l1", "l2"] ["g"] dupTree [("l1", "A"), ("l2", "x"), ("g", "1")]
      = some dupTree :=
  C3_amended ("R") ["l1", "l2"] ["g"] dupTree [("l1", "A"), ("l2", "x"), ("g", "1")]
    ["R|A", "R|A|x"] [("g", 1)] (by rfl) (by decide) (by
      simp [leafData, rowGet, pyfloat, pyfloatCore, splitDot, natOfDigits, allDigits,
        List.mapM, List.mapM.loop])

def badRows : List Row := [[("l1", "A"), ("g", "abc")]]

def goodRows : List Row := [[("l1", "A"), ("g", "2.5")]]

/-- Claim C7, counterexample: a group value that cannot be parsed makes
the whole build fail (none, modelling the ValueError raised by float), so
the original value is never stored; a parseable value is stored as its
numeric parse; the unused helper maybefloat is the function that would
have implemented the claimed parse-or-pass-through. -/
theorem C7_cex :
    theilTree badRows ("R") ["l1"] ["g"] = none
    ∧ (theilTree goodRows ("R") ["l1"] ["g"]).bind
        (fun t => (t.get ("R|A")).map (fun n => n.data.groups)) = some [("g", 5 / 2)]
    ∧ maybefloat ("abc") = PyScalar.str ("abc")
    ∧ maybefloat ("2.5") = PyScalar.num (5 / 2) := by
  refine ⟨?_, ?_, by rfl, ?_⟩
  · simp [theilTree, tree_structure, processRow, leafData, rowLoop, Tree.create_node,
      Tree.contains, Tree.get, pyfloat, pyfloatCore, splitDot, natOfDigits, allDigits,
      rowGet, dictFind, badRows,
      List.foldlM, List.find?, List.map, List.all, List.isEmpty, Option.bind, Option.map,
      List.mapM, List.mapM.loop]
  · simp [theilTree, tree_structure, processRow, leafData, rowLoop, Tree.create_node,
      Tree.contains, Tree.get, pyfloat, pyfloatCore, splitDot, natOfDigits, allDigits,
      rowGet, dictFind, goodRows,
      List.foldlM, List.find?, List.map, List.all, List.isEmpty, Option.bind, Option.map,
      List.mapM, List.mapM.loop, leaf_up_tree, Tree.pathsToLeaves, Tree.leaves, ancPath,
      processPath, aggStep, deepcopy_node_data, inc_dict, Tree.setGroups, List.filter,
      List.filterMap]
    norm_num
  · simp [maybefloat, pyfloat, pyfloatCore, splitDot, natOfDigits, allDigits]
    norm_num

/-- Claim C7, amended: the value stored per group field is float(value)
when the parse succeeds; when any group value of any row fails to parse
(or a group field is missing), the entire build fails with an error
rather than storing the original value. -/
theorem C7_amended (rows : List Row) (root : String) (levels groups : List String)
    (row : Row) (hrow : row ∈ rows) (hld : leafData row groups = none) :
    tree_structure rows root levels groups = none
    ∧ theilTree rows root levels groups = none := by
  have hts : tree_structure rows root levels groups = none := by
    unfold tree_structure
    have hcr : Tree.create_node ⟨[]⟩ root none ⟨[], root⟩
        = some ⟨[⟨root, none, [], ⟨[], root⟩⟩]⟩ := by rfl
    rw [hcr]
    simp only [Option.bind_eq_bind, Option.some_bind]
    apply foldlM_option_none _ rows row hrow
    intro t
    unfold processRow
    rw [hld]
    rfl
  refine ⟨hts, ?_⟩
  unfold theilTree
  rw [hts]
  rfl

/-- Witness for C7_amended on the unparseable row. -/
theorem C7_amended_wit :
    tree_structure badRows ("R") ["l1"] ["g"] = none
    ∧ theilTree badRows ("R") ["l1"] ["g"] = none :=
  C7_amended badRows ("R") ["l1"] ["g"] [("l1", "A"), ("g", "abc")]
    (List.mem_cons_self _ _) (by rfl)

/-
Cross-cutting statistics (claim C6).
-/

lemma get_nodes_ne_nil (t : Tree) (nid : String) (n : TNode)
    (h : t.get nid = some n) : t.nodes ≠ [] := by
  intro hnil
  rw [Tree.get, hnil] at h
  simp at h

lemma parentOf_get (t : Tree) (nid : String) (pn : TNode)
    (h : t.parentOf nid = some pn) : ∃ n, t.get nid = some n := by
  unfold Tree.parentOf at h
  rcases hg : t.get nid with _ | n
  · rw [hg] at h
    simp at h
  · exact ⟨n, rfl⟩

lemma nwr_root (t : Tree) (f : ℕ) (nid : String) (h : t.levelOf nid = some 0) :
    nwrAux t (f + 1) nid = some 1 := by
  unfold nwrAux
  rw [h]
  rfl

lemma ndr_root (t : Tree) (f : ℕ) (nid : String) (h : t.levelOf nid = some 0) :
    ndrAux t (f + 1) nid = some 1 := by
  unfold ndrAux
  rw [h]
  rfl

lemma nwr_step (t : Tree) (f : ℕ) (nid : String) (lv : ℕ) (w r : ℝ) (pn : TNode)
    (hlv : t.levelOf nid = some (lv + 1))
    (hw : node_weight t nid = some w)
    (hp : t.parentOf nid = some pn)
    (hr : nwrAux t f pn.nid = some r) :
    nwrAux t (f + 1) nid = some (w * r) := by
  unfold nwrAux
  rw [hlv, hw, hp]
  simp only [Option.bind_eq_bind, Option.some_bind]
  rw [if_neg (Nat.succ_ne_zero lv)]
  rw [hr]
  rfl

lemma ndr_step (t : Tree) (f : ℕ) (nid : String) (lv : ℕ) (dv r : ℝ) (pn : TNode)
    (hlv : t.levelOf nid = some (lv + 1))
    (hdv : node_diversity t nid = some dv)
    (hp : t.parentOf nid = some pn)
    (hr : ndrAux t f pn.nid = some r) :
    ndrAux t (f + 1) nid = some (dv * r) := by
  unfold ndrAux
  rw [hlv, hdv, hp]
  simp only [Option.bind_eq_bind, Option.some_bind]
  rw [if_neg (Nat.succ_ne_zero lv)]
  rw [hr]
  rfl

/-- node_weight_recur of a node at level 1 under a root at level 0. -/
lemma nwrec_level1 (t : Tree) (nid : String) (w : ℝ) (pn : TNode)
    (hlv : t.levelOf nid = some 1)
    (hw : node_weight t nid = some w)
    (hp : t.parentOf nid = some pn)
    (hplv : t.levelOf pn.nid = some 0) :
    node_weight_recur t nid = some (w * 1) := by
  obtain ⟨n, hn⟩ := parentOf_get t nid pn hp
  have hne : t.nodes ≠ [] := get_nodes_ne_nil t nid n hn
  obtain ⟨m, hm⟩ : ∃ m, t.nodes.length = m + 1 := by
    rcases hl : t.nodes with _ | ⟨x, xs⟩
    · exact absurd hl hne
    · exact ⟨xs.length, by simp⟩
  unfold node_weight_recur
  rw [hm]
  exact nwr_step t (m + 1) nid 0 w 1 pn hlv hw hp (nwr_root t m pn.nid hplv)

/-- node_diversity_recur of a node at level 1 under a root at level 0. -/
lemma ndrec_level1 (t : Tree) (nid : String) (dv : ℝ) (pn : TNode)
    (hlv : t.levelOf nid = some 1)
    (hdv : node_diversity t nid = some dv)
    (hp : t.parentOf nid = some pn)
    (hplv : t.levelOf pn.nid = some 0) :
    node_diversity_recur t nid = some (dv * 1) := by
  obtain ⟨n, hn⟩ := parentOf_get t nid pn hp
  have hne : t.nodes ≠ [] := get_nodes_ne_nil t nid n hn
  obtain ⟨m, hm⟩ : ∃ m, t.nodes.length = m + 1 := by
    rcases hl : t.nodes with _ | ⟨x, xs⟩
    · exact absurd hl hne
    · exact ⟨xs.length, by simp⟩
  unfold node_diversity_recur
  rw [hm]
  exact ndr_step t (m + 1) nid 0 dv 1 pn hlv hdv hp (ndr_root t m pn.nid hplv)

/-- Evaluation of xwin_theil from the values of its three factors on the
nodes selected by the label. -/
lemma xwin_eval (t : Tree) (lab : String) (ns : List TNode) (e w dv : TNode → ℝ)
    (hfil : t.nodes.filter (fun x => x.data.lunit == lab) = ns)
    (he : ∀ n ∈ ns, node_entdev t n.nid = some (e n))
    (hw : ∀ n ∈ ns, node_weight_recur t n.nid = some (w n))
    (hdv : ∀ n ∈ ns, node_diversity_recur t n.nid = some (dv n)) :
    xwin_theil t lab = some ((ns.map (fun n => e n * w n * dv n)).sum) := by
  unfold xwin_theil
  rw [hfil]
  rw [foldlM_option_some _ (fun acc n => acc + e n * w n * dv n) ns
    (by
      intro b n hn
      show Option.bind (node_entdev t n.nid) _ = _
      rw [he n hn, hw n hn, hdv n hn]
      rfl) 0]
  rw [foldl_add_sum, zero_add]

/-- One label selecting one level-1 node: crossTheil evaluates to entropy
deviation times weight times diversity. -/
lemma xwin_label_level1 (t : Tree) (lab : String) (n pn : TNode) (e w dv : ℝ)
    (hfil : t.nodes.filter (fun x => x.data.lunit == lab) = [n])
    (he : node_entdev t n.nid = some e)
    (hw : node_weight t n.nid = some w)
    (hdv : node_diversity t n.nid = some dv)
    (hlv : t.levelOf n.nid = some 1)
    (hp : t.parentOf n.nid = some pn)
    (hplv : t.levelOf pn.nid = some 0) :
    xwin_theil t lab = some (e * w * dv) := by
  have hwr := nwrec_level1 t n.nid w pn hlv hw hp hplv
  have hdr := ndrec_level1 t n.nid dv pn hlv hdv hp hplv
  rw [xwin_eval t lab [n] (fun _ => e) (fun _ => w * 1) (fun _ => dv * 1) hfil
    (by
      intro x hx
      simp only [List.mem_cons, List.not_mem_nil, or_false] at hx
      rw [hx]
      exact he)
    (by
      intro x hx
      simp only [List.mem_cons, List.not_mem_nil, or_false] at hx
      rw [hx]
      exact hwr)
    (by
      intro x hx
      simp only [List.mem_cons, List.not_mem_nil, or_false] at hx
      rw [hx]
      exact hdr)]
  exact congrArg some (by simp)

lemma xwinA : xwin_theil exTree ("A") = some (1 / 8) := by
  rw [xwin_label_level1 exTree ("A") nRA nR (1 / 2) (1 / 2) (1 / 2) (by rfl) edRA
    wRA dvRA (by rfl) (by rfl) (by rfl)]
  norm_num

lemma xwinB : xwin_theil exTree ("B") = some (1 / 8) := by
  rw [xwin_label_level1 exTree ("B") nRB nR (1 / 2) (1 / 2) (1 / 2) (by rfl) edRB
    wRB dvRB (by rfl) (by rfl) (by rfl)]
  norm_num

/-- Claim C6, counterexample: on the built example tree, the distinct
labels at hierarchy level 1 are exactly A (at node R pipe A) and B (at
node R pipe B); the crossTheil values sum to 1/4 while theil at the root
with depth 0 is 1/2. -/
theorem C6_cex :
    theilTree exRows ("R") ["l1", "l2"] exG = some exTree
    ∧ (exTree.nodes.filter (fun x => x.data.lunit == "A")).map (fun n => n.nid) = ["R|A"]
    ∧ (exTree.nodes.filter (fun x => x.data.lunit == "B")).map (fun n => n.nid) = ["R|B"]
    ∧ xwin_theil exTree ("A") = some (1 / 8)
    ∧ xwin_theil exTree ("B") = some (1 / 8)
    ∧ theil exTree ("R") 0 = some (1 / 2)
    ∧ (1 / 8 + 1 / 8 : ℝ) ≠ 1 / 2 :=
  ⟨exTree_eq, by rfl, by rfl, xwinA, xwinB, thR0, by norm_num⟩

/-- Claim C6, amended: when each label of a duplicate-free list selects
exactly one node, all at level 1 under the level-0 root, the sum of
crossTheil over the labels equals the sum over the selected nodes of
nodeWeight * nodeEntropyDeviation * nodeDiversity: the between-group
component theil(tree, root, 0) additionally corrected by each child
diversity factor, not theil(tree, root, 0) itself. -/
theorem C6_amended (t : Tree) (L : List String) (sel : String → TNode) (r : TNode)
    (e w dv : String → ℝ)
    (hsel : ∀ lab ∈ L, t.nodes.filter (fun x => x.data.lunit == lab) = [sel lab])
    (he : ∀ lab ∈ L, node_entdev t (sel lab).nid = some (e lab))
    (hw : ∀ lab ∈ L, node_weight t (sel lab).nid = some (w lab))
    (hdv : ∀ lab ∈ L, node_diversity t (sel lab).nid = some (dv lab))
    (hlv : ∀ lab ∈ L, t.levelOf (sel lab).nid = some 1)
    (hp : ∀ lab ∈ L, t.parentOf (sel lab).nid = some r)
    (hplv : t.levelOf r.nid = some 0) :
    (∀ lab ∈ L, xwin_theil t lab = some (e lab * w lab * dv lab))
    ∧ (L.map (fun lab => e lab * w lab * dv lab)).sum
        = (L.map (fun lab => w lab * e lab)).sum
          + (L.map (fun lab => w lab * e lab * (dv lab - 1))).sum := by
  constructor
  · intro lab hlab
    exact xwin_label_level1 t lab (sel lab) r (e lab) (w lab) (dv lab)
      (hsel lab hlab) (he lab hlab) (hw lab hlab) (hdv lab hlab)
      (hlv lab hlab) (hp lab hlab) hplv
  · induction L with
    | nil => simp
    | cons a rest ih =>
      simp only [List.map_cons, List.sum_cons]
      rw [ih (fun x hx => hsel x (List.mem_cons_of_mem a hx))
        (fun x hx => he x (List.mem_cons_of_mem a hx))
        (fun x hx => hw x (List.mem_cons_of_mem a hx))
        (fun x hx => hdv x (List.mem_cons_of_mem a hx))
        (fun x hx => hlv x (List.mem_cons_of_mem a hx))
        (fun x hx => hp x (List.mem_cons_of_mem a hx))]
      ring

/-- Witness for C6_amended: the label A on the example tree. -/
theorem C6_amended_wit : xwin_theil exTree ("A") = some (1 / 2 * (1 / 2) * (1 / 2)) :=
  (C6_amended exTree ["A", "B"]
    (fun lab => if lab = "A" then nRA else nRB) nR
    (fun _ => 1 / 2) (fun _ => 1 / 2) (fun _ => 1 / 2)
    (by
      intro lab hlab
      simp only [List.mem_cons, List.not_mem_nil, or_false] at hlab
      rcases hlab with rfl | rfl
      · simpa using (by rfl :
          exTree.nodes.filter (fun x => x.data.lunit == "A") = [nRA])
      · simpa using (by rfl :
          exTree.nodes.filter (fun x => x.data.lunit == "B") = [nRB]))
    (by
      intro lab hlab
      simp only [List.mem_cons, List.not_mem_nil, or_false] at hlab
      rcases hlab with rfl | rfl
      · simpa using edRA
      · simpa using edRB)
    (by
      intro lab hlab
      simp only [List.mem_cons, List.not_mem_nil, or_false] at hlab
      rcases hlab with rfl | rfl
      · simpa using wRA
      · simpa using wRB)
    (by
      intro lab hlab
      simp only [List.mem_cons, List.not_mem_nil, or_false] at hlab
      rcases hlab with rfl | rfl
      · simpa using dvRA
      · simpa using dvRB)
    (by
      intro lab hlab
      simp only [List.mem_cons, List.not_mem_nil, or_false] at hlab
      rcases hlab with rfl | rfl
      · simpa using (by rfl : exTree.levelOf ("R|A") = some 1)
      · simpa using (by rfl : exTree.levelOf ("R|B") = some 1))
    (by
      intro lab hlab
      simp only [List.mem_cons, List.not_mem_nil, or_false] at hlab
      rcases hlab with rfl | rfl
      · simpa using (by rfl : exTree.parentOf ("R|A") = some nR)
      · simpa using (by rfl : exTree.parentOf ("R|B") = some nR))
    (by rfl)).1 ("A") (List.mem_cons_self _ _)

/-
Aggregation correctness (claim C2).  States reachable during leaf_up_tree
differ from the start tree only in the groups dicts; they are represented
as the start tree transformed by a function from node identifier and
original dict to current dict.
-/

/-- Transform one node by a groups function. -/
def tfG (F : String → Dict → Dict) (n : TNode) : TNode :=
  ⟨n.nid, n.parent, n.children, ⟨F n.nid n.data.groups, n.data.lunit⟩⟩

/-- Transform every node of a tree by a groups function. -/
def applyG (F : String → Dict → Dict) (t : Tree) : Tree :=
  ⟨t.nodes.map (tfG F)⟩

/-- The value of one group key at one node, 0 when absent. -/
def valAt (t : Tree) (l g : String) : ℚ :=
  ((t.get l).map (fun n => dictGet n.data.groups g)).getD 0

/-- The leaves contributing to a node during aggregation over a list of
paths: the last elements of the paths whose strict ancestor part contains
the node. -/
def contribsOf (ps : List (List String)) (x : String) : List String :=
  ps.filterMap (fun p => if x ∈ p.dropLast then p.getLast? else none)

/-- The keyed elementwise sum of the dicts of a list of leaves. -/
def sumDict (t0 : Tree) (G : List String) (ls : List String) : Dict :=
  G.map (fun g => (g, (ls.map (fun l => valAt t0 l g)).sum))

/-- The groups transformation performed by aggregating a list of paths. -/
def aggF (t0 : Tree) (G : List String) (ps : List (List String)) :
    String → Dict → Dict :=
  fun x gdict =>
    if contribsOf ps x = [] then gdict else sumDict t0 G (contribsOf ps x)

/-- One aggregation update of a current dict by a leaf value function. -/
def mergeG (G : List String) (old : Dict) (lval : String → ℚ) : Dict :=
  if old = [] then G.map (fun g => (g, lval g))
  else G.map (fun g => (g, dictGet old g + lval g))

/-- Interior node check: present, has children, empty groups. -/
def nodeInterior (t : Tree) (x : String) : Bool :=
  match t.get x with
  | some n => !n.children.isEmpty && n.data.groups.isEmpty
  | none => false

/-- Leaf node check: present, no children, groups keyed exactly by G. -/
def nodeLeafKeys (t : Tree) (G : List String) (x : String) : Bool :=
  match t.get x with
  | some n => n.children.isEmpty && (dictKeys n.data.groups == G)
  | none => false

/-- The shape of one root-to-leaf path in a built tree: nonempty, duplicate
free, interior elements are interior nodes, the last element is a leaf
keyed by G. -/
def pathOkFor (t : Tree) (G : List String) (p : List String) : Prop :=
  p ≠ [] ∧ p.Nodup
  ∧ (∀ x ∈ p.dropLast, nodeInterior t x = true)
  ∧ nodeLeafKeys t G (p.getLastD "") = true

/-- The well-formedness a tree built by tree_structure has when
leaf_up_tree starts: every root-to-leaf path is shaped as above, the
leaves are pairwise distinct, and every node lies on some path. -/
def WF (t : Tree) (G : List String) : Prop :=
  G.Nodup
  ∧ (∀ p ∈ t.pathsToLeaves, pathOkFor t G p)
  ∧ (t.pathsToLeaves.map (fun p => p.getLastD "")).Nodup
  ∧ (∀ n ∈ t.nodes, ∃ p ∈ t.pathsToLeaves, n.nid ∈ p)

/-- The descendant leaves of a node: the last elements of the root-to-leaf
paths through it (a leaf is its own descendant). -/
def leafDescendants (t : Tree) (x : String) : List String :=
  t.pathsToLeaves.filterMap (fun p => if x ∈ p then p.getLast? else none)

/-
Structure preservation of applyG.
-/

lemma mapCongrMem {α β : Type} (l : List α) (f g : α → β)
    (h : ∀ a ∈ l, f a = g a) : l.map f = l.map g := by
  induction l with
  | nil => rfl
  | cons a rest ih =>
    simp only [List.map_cons]
    rw [h a (List.mem_cons_self a rest), ih (fun x hx => h x (List.mem_cons_of_mem a hx))]

lemma filterMapCongrMem {α β : Type} (l : List α) (f g : α → Option β)
    (h : ∀ a ∈ l, f a = g a) : l.filterMap f = l.filterMap g := by
  induction l with
  | nil => rfl
  | cons a rest ih =>
    simp only [List.filterMap_cons]
    rw [h a (List.mem_cons_self a rest), ih (fun x hx => h x (List.mem_cons_of_mem a hx))]

lemma filterMap_nil_of {α β : Type} (l : List α) (f : α → Option β)
    (h : ∀ a ∈ l, f a = none) : l.filterMap f = [] := by
  induction l with
  | nil => rfl
  | cons a rest ih =>
    simp only [List.filterMap_cons]
    rw [h a (List.mem_cons_self a rest)]
    exact ih (fun x hx => h x (List.mem_cons_of_mem a hx))

lemma map_eta (ns : List TNode) :
    ns.map (fun n => (⟨n.nid, n.parent, n.children,
      ⟨n.data.groups, n.data.lunit⟩⟩ : TNode)) = ns := by
  induction ns with
  | nil => rfl
  | cons a rest ih =>
    simp only [List.map_cons, ih]

lemma find?_tfG (ns : List TNode) (F : String → Dict → Dict) (y : String) :
    (ns.map (tfG F)).find? (fun n => n.nid == y)
      = (ns.find? (fun n => n.nid == y)).map (tfG F) := by
  induction ns with
  | nil => rfl
  | cons a rest ih =>
    simp only [List.map_cons, List.find?]
    have hh : ((tfG F a).nid == y) = (a.nid == y) := rfl
    rw [hh]
    rcases ha : (a.nid == y) with _ | _
    · simpa using ih
    · rfl

lemma get_applyG (F : String → Dict → Dict) (t : Tree) (y : String) :
    (applyG F t).get y = (t.get y).map (tfG F) := by
  unfold applyG Tree.get
  exact find?_tfG t.nodes F y

lemma childrenOf_applyG (F : String → Dict → Dict) (t : Tree) (y : String) :
    (applyG F t).childrenOf y = t.childrenOf y := by
  unfold Tree.childrenOf
  rw [get_applyG]
  rcases t.get y with _ | n <;> rfl

lemma length_applyG (F : String → Dict → Dict) (t : Tree) :
    (applyG F t).nodes.length = t.nodes.length := by
  unfold applyG
  simp

lemma leaves_applyG (F : String → Dict → Dict) (t : Tree) :
    (applyG F t).leaves = t.leaves.map (tfG F) := by
  unfold Tree.leaves applyG
  show (t.nodes.map (tfG F)).filter (fun n => n.children.isEmpty) = _
  induction t.nodes with
  | nil => rfl
  | cons a rest ih =>
    simp only [List.map_cons, List.filter_cons]
    have hh : (tfG F a).children.isEmpty = a.children.isEmpty := rfl
    rw [hh]
    rcases ha : a.children.isEmpty with _ | _
    · simpa using ih
    · simp only [if_true, List.map_cons]
      rw [ih]

lemma ancPath_applyG (F : String → Dict → Dict) (t : Tree) :
    ∀ (f : ℕ) (nid : String), ancPath (applyG F t) f nid = ancPath t f nid := by
  intro f
  induction f with
  | zero => intro nid; rfl
  | succ k ih =>
    intro nid
    unfold ancPath
    rw [get_applyG]
    rcases hg : t.get nid with _ | n
    · rfl
    · show (match n.parent with
        | none => some [nid]
        | some pid => (ancPath (applyG F t) k pid).map (fun p => p ++ [nid]))
        = (match n.parent with
        | none => some [nid]
        | some pid => (ancPath t k pid).map (fun p => p ++ [nid]))
      rcases n.parent with _ | pid
      · rfl
      · show (ancPath (applyG F t) k pid).map (fun p => p ++ [nid])
          = (ancPath t k pid).map (fun p => p ++ [nid])
        rw [ih pid]

lemma pathsToLeaves_applyG (F : String → Dict → Dict) (t : Tree) :
    (applyG F t).pathsToLeaves = t.pathsToLeaves := by
  unfold Tree.pathsToLeaves
  rw [leaves_applyG, length_applyG, List.filterMap_map]
  apply filterMapCongrMem
  intro l _
  show ancPath (applyG F t) (t.nodes.length + 1) (tfG F l).nid = _
  rw [ancPath_applyG]
  rfl

lemma setGroups_applyG (F : String → Dict → Dict) (t : Tree) (x : String) (c : Dict) :
    Tree.setGroups (applyG F t) x c
      = applyG (fun y g => if y = x then c else F y g) t := by
  unfold Tree.setGroups applyG
  congr 1
  rw [List.map_map]
  apply mapCongrMem
  intro n _
  show (if (tfG F n).nid = x then _ else _) = _
  unfold tfG
  by_cases h : n.nid = x
  · simp only [h, if_true]
  · simp only [h, if_false]

lemma applyG_congr (F F2 : String → Dict → Dict) (t : Tree)
    (h : ∀ y g, F y g = F2 y g) : applyG F t = applyG F2 t := by
  unfold applyG
  congr 1
  apply mapCongrMem
  intro n _
  unfold tfG
  rw [h n.nid n.data.groups]

/-
Dict-shape lemmas for C2.
-/

lemma keys_find_isSome (d : Dict) (g : String) (h : g ∈ dictKeys d) :
    (dictFind d g).isSome = true := by
  induction d with
  | nil => simp [dictKeys] at h
  | cons kv rest ih =>
    by_cases he : kv.1 = g
    · have : dictFind (kv :: rest) g = some kv.2 := by
        simp [dictFind, List.find?, he]
      simp [this]
    · have hb : (kv.1 == g) = false := beq_eq_false_iff_ne.mpr he
      have hstep : dictFind (kv :: rest) g = dictFind rest g := by
        simp [dictFind, List.find?, hb]
      rw [hstep]
      apply ih
      have h2 : g ∈ kv.1 :: dictKeys rest := h
      rcases List.mem_cons.mp h2 with h1 | h1
      · exact absurd h1.symm he
      · exact h1

lemma dictFind_eq_get (d : Dict) (g : String) (h : (dictFind d g).isSome = true) :
    dictFind d g = some (dictGet d g) := by
  rcases hf : dictFind d g with _ | v
  · rw [hf] at h
    simp at h
  · simp [dictGet, hf]

lemma dictGet_head (kv : String × ℚ) (rest : Dict) :
    dictGet (kv :: rest) kv.1 = kv.2 := by
  simp [dictGet, dictFind, List.find?]

lemma dictGet_tail (kv : String × ℚ) (rest : Dict) (g : String) (h : kv.1 ≠ g) :
    dictGet (kv :: rest) g = dictGet rest g := by
  have hb : (kv.1 == g) = false := beq_eq_false_iff_ne.mpr h
  simp [dictGet, dictFind, List.find?, hb]

lemma dictGet_mapG (G : List String) (S : String → ℚ) (g : String)
    (hg : g ∈ G) (hnd : G.Nodup) :
    dictGet (G.map (fun g2 => (g2, S g2))) g = S g := by
  induction G with
  | nil => simp at hg
  | cons a rest ih =>
    by_cases he : a = g
    · subst he
      simp only [List.map_cons]
      exact dictGet_head (a, S a) _
    · simp only [List.map_cons]
      rw [dictGet_tail (a, S a) _ g he]
      have hg2 : g ∈ rest := by
        rcases List.mem_cons.mp hg with h1 | h1
        · exact absurd h1.symm he
        · exact h1
      exact ih hg2 (List.Nodup.of_cons hnd)

lemma dict_eta (d : Dict) (G : List String) (hk : dictKeys d = G) (hnd : G.Nodup) :
    d = G.map (fun g => (g, dictGet d g)) := by
  induction d generalizing G with
  | nil =>
    simp only [dictKeys, List.map_nil] at hk
    rw [← hk]
    rfl
  | cons kv rest ih =>
    have hk2 : G = kv.1 :: dictKeys rest := by
      rw [← hk]
      rfl
    subst hk2
    have hnotin : kv.1 ∉ dictKeys rest := (List.nodup_cons.mp hnd).1
    have hnd2 : (dictKeys rest).Nodup := (List.nodup_cons.mp hnd).2
    simp only [List.map_cons]
    have hhead : dictGet (kv :: rest) kv.1 = kv.2 := dictGet_head kv rest
    rw [hhead]
    have htail : (dictKeys rest).map (fun g => (g, dictGet (kv :: rest) g))
        = (dictKeys rest).map (fun g => (g, dictGet rest g)) := by
      apply mapCongrMem
      intro g hgm
      have hne : kv.1 ≠ g := fun he => hnotin (he ▸ hgm)
      rw [dictGet_tail kv rest g hne]
    rw [htail, ← ih (dictKeys rest) rfl hnd2]

lemma inc_dict_eval (from2 : Dict) (G : List String) (S : String → ℚ)
    (h : ∀ g ∈ G, (dictFind from2 g).isSome = true) :
    inc_dict from2 (G.map (fun g => (g, S g)))
      = some (G.map (fun g => (g, S g + dictGet from2 g))) := by
  induction G with
  | nil => rfl
  | cons a rest ih =>
    unfold inc_dict
    simp only [List.map_cons, List.mapM_cons]
    rw [dictFind_eq_get from2 a (h a (List.mem_cons_self a rest))]
    have ih2 := ih (fun g hg => h g (List.mem_cons_of_mem a hg))
    unfold inc_dict at ih2
    simp only [Option.map_eq_map, Option.bind_eq_bind, Option.some_bind,
      Option.map_some]
    rw [ih2]
    rfl

lemma sumDict_single (t0 : Tree) (G : List String) (l : String) :
    sumDict t0 G [l] = G.map (fun g => (g, valAt t0 l g)) := by
  unfold sumDict
  simp

lemma sumDict_append (t0 : Tree) (G : List String) (ls : List String) (l : String) :
    sumDict t0 G (ls ++ [l])
      = G.map (fun g => (g, (ls.map (fun l2 => valAt t0 l2 g)).sum + valAt t0 l g)) := by
  unfold sumDict
  simp

lemma nodeInterior_spec (t : Tree) (x : String) (h : nodeInterior t x = true) :
    ∃ n, t.get x = some n ∧ n.children ≠ [] ∧ n.data.groups = [] := by
  unfold nodeInterior at h
  rcases hg : t.get x with _ | n
  · rw [hg] at h
    simp at h
  · rw [hg] at h
    simp only [Bool.and_eq_true, Bool.not_eq_true'] at h
    refine ⟨n, rfl, ?_, ?_⟩
    · intro hc
      rw [hc] at h
      simp at h
    · have := h.2
      simpa [List.isEmpty_iff] using this

lemma nodeLeafKeys_spec (t : Tree) (G : List String) (x : String)
    (h : nodeLeafKeys t G x = true) :
    ∃ n, t.get x = some n ∧ n.children = [] ∧ dictKeys n.data.groups = G := by
  unfold nodeLeafKeys at h
  rcases hg : t.get x with _ | n
  · rw [hg] at h
    simp at h
  · rw [hg] at h
    simp only [Bool.and_eq_true, beq_iff_eq] at h
    exact ⟨n, rfl, by simpa [List.isEmpty_iff] using h.1, h.2⟩

lemma contribsOf_append (ps qs : List (List String)) (x : String) :
    contribsOf (ps ++ qs) x = contribsOf ps x ++ contribsOf qs x := by
  unfold contribsOf
  rw [List.filterMap_append]

lemma contribsOf_single_mem (p : List String) (x l : String)
    (hm : x ∈ p.dropLast) (hl : p.getLast? = some l) :
    contribsOf [p] x = [l] := by
  unfold contribsOf
  simp [hm, hl]

lemma contribsOf_single_not (p : List String) (x : String) (hm : x ∉ p.dropLast) :
    contribsOf [p] x = [] := by
  unfold contribsOf
  simp [hm]

lemma contribs_leaf_nil (t0 : Tree) (G : List String) (qs : List (List String))
    (l : String) (hq : ∀ q ∈ qs, pathOkFor t0 G q)
    (hleaf : nodeLeafKeys t0 G l = true) : contribsOf qs l = [] := by
  apply filterMap_nil_of
  intro q hqm
  by_cases hm : l ∈ q.dropLast
  · exfalso
    obtain ⟨n1, hn1, hc1, _⟩ := nodeInterior_spec t0 l ((hq q hqm).2.2.1 l hm)
    obtain ⟨n2, hn2, hc2, _⟩ := nodeLeafKeys_spec t0 G l hleaf
    rw [hn1] at hn2
    exact hc1 (by rw [Option.some.inj hn2, hc2])
  · simp [hm]

/-
The single aggregation update, on a state represented as applyG.
-/

lemma get_nid (t : Tree) (x : String) (n : TNode) (h : t.get x = some n) :
    n.nid = x := by
  unfold Tree.get at h
  have := List.find?_some h
  simpa using this

lemma aggStep_merge (t0 : Tree) (G : List String) (hG : G.Nodup)
    (F : String → Dict → Dict) (l x : String) (pn ln : TNode)
    (hx : t0.get x = some pn) (hxg : pn.data.groups = [])
    (hl : t0.get l = some ln) (hkeys : dictKeys ln.data.groups = G)
    (hFl : F l ln.data.groups = ln.data.groups)
    (hshape : F x [] = [] ∨ ∃ S : String → ℚ, F x [] = G.map (fun g => (g, S g))) :
    aggStep (applyG F t0) l x
      = some (applyG (fun y g =>
          if y = x then mergeG G (F x []) (fun g2 => valAt t0 l g2) else F y g) t0) := by
  have hval : ∀ g, valAt t0 l g = dictGet ln.data.groups g := by
    intro g
    unfold valAt
    rw [hl]
    rfl
  have hget1 : (applyG F t0).get x = some (tfG F pn) := by
    rw [get_applyG, hx]
    rfl
  have hget2 : (applyG F t0).get l = some (tfG F ln) := by
    rw [get_applyG, hl]
    rfl
  have hnidx : pn.nid = x := get_nid t0 x pn hx
  have hnidl : ln.nid = l := get_nid t0 l ln hl
  have hcurg : (tfG F pn).data.groups = F x [] := by
    show F pn.nid pn.data.groups = F x []
    rw [hxg, hnidx]
  have hfrom : (tfG F ln).data.groups = ln.data.groups := by
    show F ln.nid ln.data.groups = ln.data.groups
    rw [hnidl]
    exact hFl
  unfold aggStep
  rw [hget1]
  simp only [Option.bind_eq_bind, Option.some_bind]
  by_cases hcur : F x [] = []
  · rw [if_pos (by rw [hcurg, hcur])]
    unfold deepcopy_node_data
    rw [hget2, hget1]
    simp only [Option.bind_eq_bind, Option.some_bind]
    rw [setGroups_applyG]
    apply congrArg some
    apply applyG_congr
    intro y g
    by_cases hy : y = x
    · rw [if_pos hy, if_pos hy, hfrom, hcur]
      unfold mergeG
      rw [if_pos rfl]
      have : G.map (fun g2 => (g2, valAt t0 l g2))
          = G.map (fun g2 => (g2, dictGet ln.data.groups g2)) := by
        apply mapCongrMem
        intro g2 _
        rw [hval g2]
      rw [this, ← dict_eta ln.data.groups G hkeys hG]
    · rw [if_neg hy, if_neg hy]
  · rw [if_neg (by rw [hcurg]; exact hcur)]
    rcases hshape with h1 | ⟨S, hS⟩
    · exact absurd h1 hcur
    rw [hget2]
    simp only [Option.bind_eq_bind, Option.some_bind]
    rw [hfrom, hcurg, hS]
    rw [inc_dict_eval ln.data.groups G S
      (fun g hg => keys_find_isSome ln.data.groups g (by rw [hkeys]; exact hg))]
    simp only [Option.bind_eq_bind, Option.some_bind]
    rw [setGroups_applyG]
    apply congrArg some
    apply applyG_congr
    intro y g
    by_cases hy : y = x
    · rw [if_pos hy, if_pos hy]
      unfold mergeG
      have hmapne : List.map (fun g => (g, S g)) G ≠ [] := by
        rw [← hS]
        exact hcur
      rw [if_neg hmapne]
      apply mapCongrMem
      intro g2 hg2
      show (g2, S g2 + dictGet ln.data.groups g2)
        = (g2, dictGet (List.map (fun g => (g, S g)) G) g2 + valAt t0 l g2)
      rw [dictGet_mapG G S g2 hg2 hG, hval g2]
    · rw [if_neg hy, if_neg hy]

/-- The fold over the strict ancestors of one path. -/
lemma anc_fold (t0 : Tree) (G : List String) (hG : G.Nodup) (l : String) (ln : TNode)
    (hl : t0.get l = some ln) (hkeys : dictKeys ln.data.groups = G) :
    ∀ (as : List String) (F : String → Dict → Dict),
      as.Nodup → l ∉ as →
      (∀ x ∈ as, ∃ n, t0.get x = some n ∧ n.data.groups = []) →
      F l ln.data.groups = ln.data.groups →
      (∀ x ∈ as, F x [] = [] ∨ ∃ S : String → ℚ, F x [] = G.map (fun g => (g, S g))) →
      as.foldlM (fun acc parent => aggStep acc l parent) (applyG F t0)
        = some (applyG (fun y g =>
            if y ∈ as then mergeG G (F y []) (fun g2 => valAt t0 l g2) else F y g) t0) := by
  intro as
  induction as with
  | nil =>
    intro F _ _ _ _ _
    show some (applyG F t0) = _
    apply congrArg some
    apply applyG_congr
    intro y g
    simp
  | cons x rest ih =>
    intro F hnd hlmem hint hFl hshape
    obtain ⟨pn, hx, hxg⟩ := hint x (List.mem_cons_self x rest)
    have hstep := aggStep_merge t0 G hG F l x pn ln hx hxg hl hkeys hFl
      (hshape x (List.mem_cons_self x rest))
    show Option.bind (aggStep (applyG F t0) l x)
      (fun acc => rest.foldlM (fun acc parent => aggStep acc l parent) acc) = _
    rw [hstep]
    simp only [Option.some_bind']
    have hxrest : x ∉ rest := (List.nodup_cons.mp hnd).1
    have hlx : l ≠ x := fun he => hlmem (he ▸ List.mem_cons_self x rest)
    have ihres := ih (fun y g =>
        if y = x then mergeG G (F x []) (fun g2 => valAt t0 l g2) else F y g)
      (List.nodup_cons.mp hnd).2
      (fun hm => hlmem (List.mem_cons_of_mem x hm))
      (fun y hy => hint y (List.mem_cons_of_mem x hy))
      (by
        have hb : (fun y g =>
            if y = x then mergeG G (F x []) (fun g2 => valAt t0 l g2) else F y g)
            l ln.data.groups
            = if l = x then mergeG G (F x []) (fun g2 => valAt t0 l g2)
              else F l ln.data.groups := rfl
        rw [hb, if_neg hlx]
        exact hFl)
      (by
        intro y hy
        have hyx : y ≠ x := fun he => hxrest (he ▸ hy)
        have hb : (fun y g =>
            if y = x then mergeG G (F x []) (fun g2 => valAt t0 l g2) else F y g) y []
            = if y = x then mergeG G (F x []) (fun g2 => valAt t0 l g2)
              else F y [] := rfl
        rw [hb, if_neg hyx]
        exact hshape y (List.mem_cons_of_mem x hy))
    rw [ihres]
    apply congrArg some
    apply applyG_congr
    intro y g
    show (if y ∈ rest then
        mergeG G (if y = x then mergeG G (F x []) (fun g2 => valAt t0 l g2) else F y [])
          (fun g2 => valAt t0 l g2)
      else if y = x then mergeG G (F x []) (fun g2 => valAt t0 l g2) else F y g)
      = (if y ∈ x :: rest then mergeG G (F y []) (fun g2 => valAt t0 l g2) else F y g)
    by_cases h1 : y ∈ rest
    · have hyx : y ≠ x := fun he => hxrest (he ▸ h1)
      rw [if_pos h1, if_neg hyx, if_pos (List.mem_cons_of_mem x h1)]
    · by_cases h2 : y = x
      · rw [if_neg h1, if_pos h2, if_pos (h2 ▸ List.mem_cons_self x rest), h2]
      · rw [if_neg h1, if_neg h2,
          if_neg (by
            intro hm
            rcases List.mem_cons.mp hm with h3 | h3
            · exact h2 h3
            · exact h1 h3)]

lemma getLast?_eq_getLastD (p : List String) (h : p ≠ []) :
    p.getLast? = some (p.getLastD "") := by
  rw [List.getLast?_eq_getLast_of_ne_nil h, List.getLastD_eq_getLast?,
    List.getLast?_eq_getLast_of_ne_nil h]
  rfl

/-- Processing one path moves the aggregation state forward by that path. -/
lemma processPath_applyG (t0 : Tree) (G : List String) (hG : G.Nodup)
    (qs : List (List String)) (p : List String)
    (hqs : ∀ q ∈ qs, pathOkFor t0 G q)
    (hp : pathOkFor t0 G p) :
    processPath (applyG (aggF t0 G qs) t0) p
      = some (applyG (aggF t0 G (qs ++ [p])) t0) := by
  obtain ⟨hpne, hpnd, hint, hleaf⟩ := hp
  have hlast : p.getLast? = some (p.getLastD "") := getLast?_eq_getLastD p hpne
  obtain ⟨ln, hl, hlc, hlkeys⟩ := nodeLeafKeys_spec t0 G (p.getLastD "") hleaf
  have hndrop : p.dropLast.Nodup := List.Nodup.sublist (List.dropLast_sublist p) hpnd
  have hlnotin : (p.getLastD "") ∉ p.dropLast := by
    intro hm
    obtain ⟨n1, hn1, hc1, _⟩ := nodeInterior_spec t0 (p.getLastD "") (hint _ hm)
    rw [hl] at hn1
    exact hc1 (by rw [← Option.some.inj hn1, hlc])
  have hcontribs : contribsOf qs (p.getLastD "") = [] :=
    contribs_leaf_nil t0 G qs (p.getLastD "") hqs hleaf
  have hFl : aggF t0 G qs (p.getLastD "") ln.data.groups = ln.data.groups := by
    unfold aggF
    rw [hcontribs, if_pos rfl]
  have hshape : ∀ x ∈ p.dropLast, aggF t0 G qs x [] = []
      ∨ ∃ S : String → ℚ, aggF t0 G qs x [] = G.map (fun g => (g, S g)) := by
    intro x _
    unfold aggF
    by_cases hc : contribsOf qs x = []
    · left
      rw [if_pos hc]
    · right
      exact ⟨fun g => ((contribsOf qs x).map (fun l2 => valAt t0 l2 g)).sum,
        by rw [if_neg hc]; rfl⟩
  have hintfacts : ∀ x ∈ p.dropLast, ∃ n, t0.get x = some n ∧ n.data.groups = [] := by
    intro x hx
    obtain ⟨n, hn, _, hg⟩ := nodeInterior_spec t0 x (hint x hx)
    exact ⟨n, hn, hg⟩
  unfold processPath
  rw [hlast]
  show p.dropLast.foldlM (fun acc parent => aggStep acc (p.getLastD "") parent)
    (applyG (aggF t0 G qs) t0) = some (applyG (aggF t0 G (qs ++ [p])) t0)
  rw [anc_fold t0 G hG (p.getLastD "") ln hl hlkeys p.dropLast (aggF t0 G qs)
    hndrop hlnotin hintfacts hFl hshape]
  apply congrArg some
  apply applyG_congr
  intro y g
  show (if y ∈ p.dropLast then
      mergeG G (aggF t0 G qs y []) (fun g2 => valAt t0 (p.getLastD "") g2)
    else aggF t0 G qs y g) = aggF t0 G (qs ++ [p]) y g
  have hca : contribsOf (qs ++ [p]) y = contribsOf qs y ++ contribsOf [p] y :=
    contribsOf_append qs [p] y
  by_cases hm : y ∈ p.dropLast
  · rw [if_pos hm]
    have hc1 : contribsOf [p] y = [p.getLastD ""] :=
      contribsOf_single_mem p y (p.getLastD "") hm hlast
    unfold aggF
    rw [hca, hc1]
    have hne2 : contribsOf qs y ++ [p.getLastD ""] ≠ [] := by simp
    rw [if_neg hne2]
    by_cases hcq : contribsOf qs y = []
    · rw [if_pos hcq, hcq]
      unfold mergeG
      rw [if_pos rfl]
      rw [show ([] : List String) ++ [p.getLastD ""] = [p.getLastD ""] from rfl,
        sumDict_single]
    · rw [if_neg hcq]
      unfold mergeG
      by_cases hsd : sumDict t0 G (contribsOf qs y) = []
      · rw [if_pos hsd]
        have hGnil : G = [] := by
          unfold sumDict at hsd
          simpa [List.map_eq_nil_iff] using hsd
        subst hGnil
        rfl
      · rw [if_neg hsd, sumDict_append]
        apply mapCongrMem
        intro g2 hg2
        unfold sumDict
        rw [dictGet_mapG G _ g2 hg2 hG]
  · rw [if_neg hm]
    have hc0 : contribsOf [p] y = [] := contribsOf_single_not p y hm
    unfold aggF
    rw [hca, hc0, List.append_nil]

/-- The whole aggregation fold, path by path. -/
lemma agg_fold (t0 : Tree) (G : List String) (hG : G.Nodup) :
    ∀ (ps qs : List (List String)),
      (∀ q ∈ qs ++ ps, pathOkFor t0 G q) →
      ps.foldlM processPath (applyG (aggF t0 G qs) t0)
        = some (applyG (aggF t0 G (qs ++ ps)) t0) := by
  intro ps
  induction ps with
  | nil =>
    intro qs h
    show some (applyG (aggF t0 G qs) t0) = _
    rw [List.append_nil]
  | cons p rest ih =>
    intro qs h
    have hqs : ∀ q ∈ qs, pathOkFor t0 G q := fun q hq => h q (List.mem_append_left _ hq)
    have hp : pathOkFor t0 G p :=
      h p (List.mem_append_right qs (List.mem_cons_self p rest))
    have h1 := processPath_applyG t0 G hG qs p hqs hp
    show Option.bind (processPath (applyG (aggF t0 G qs) t0) p)
      (fun acc => rest.foldlM processPath acc) = _
    rw [h1]
    simp only [Option.some_bind']
    have ih2 := ih (qs ++ [p]) (by
      intro q hq
      apply h
      rw [List.append_assoc] at hq
      simpa using hq)
    rw [ih2, List.append_assoc]
    rfl

/-- leaf_up_tree computes exactly the aggregation transformation over all
root-to-leaf paths. -/
lemma leaf_up_applyG (t0 : Tree) (G : List String) (hG : G.Nodup)
    (hpaths : ∀ p ∈ t0.pathsToLeaves, pathOkFor t0 G p) :
    leaf_up_tree t0 = some (applyG (aggF t0 G t0.pathsToLeaves) t0) := by
  have h0 : applyG (aggF t0 G []) t0 = t0 := by
    unfold applyG
    have h2 : ∀ n ∈ t0.nodes, tfG (aggF t0 G []) n
        = (⟨n.nid, n.parent, n.children, ⟨n.data.groups, n.data.lunit⟩⟩ : TNode) := by
      intro n _
      rfl
    show Tree.mk (t0.nodes.map (tfG (aggF t0 G []))) = t0
    rw [mapCongrMem _ _ _ h2, map_eta]
  have h1 := agg_fold t0 G hG t0.pathsToLeaves [] (by simpa using hpaths)
  rw [h0] at h1
  unfold leaf_up_tree
  rw [h1]
  rw [List.nil_append]

/-
From the fold result to the conservation statement: leaf descendants,
leaf identification, and the sum exchange for totals.
-/

lemma get_mem (t : Tree) (x : String) (n : TNode) (h : t.get x = some n) :
    n ∈ t.nodes := by
  unfold Tree.get at h
  exact List.mem_of_find?_eq_some h

lemma lastD_mem (p : List String) (h : p ≠ []) : p.getLastD ("") ∈ p := by
  have h1 := List.getLast?_eq_getLast_of_ne_nil h
  have h2 := getLast?_eq_getLastD p h
  rw [h1] at h2
  rw [← Option.some.inj h2]
  exact List.getLast_mem h

lemma mem_path_cases (p : List String) (hne : p ≠ []) (x : String) (hx : x ∈ p) :
    x ∈ p.dropLast ∨ x = p.getLastD ("") := by
  have hsplit : p.dropLast ++ [p.getLast hne] = p := List.dropLast_append_getLast hne
  have hlast : p.getLast hne = p.getLastD ("") := by
    have h1 := List.getLast?_eq_getLast_of_ne_nil hne
    have h2 := getLast?_eq_getLastD p hne
    rw [h1] at h2
    exact Option.some.inj h2
  rw [← hsplit] at hx
  rcases List.mem_append.mp hx with h | h
  · exact Or.inl h
  · right
    rw [← hlast]
    simpa using h

lemma contribs_are_leaves (t : Tree) (G : List String) (ps : List (List String))
    (x l : String) (hps : ∀ p ∈ ps, pathOkFor t G p)
    (hm : l ∈ contribsOf ps x) : nodeLeafKeys t G l = true := by
  unfold contribsOf at hm
  obtain ⟨q, hq, hfq⟩ := List.mem_filterMap.mp hm
  obtain ⟨hqne, hqnd, hqint, hqleaf⟩ := hps q hq
  by_cases h1 : x ∈ q.dropLast
  · rw [if_pos h1, getLast?_eq_getLastD q hqne] at hfq
    rw [← Option.some.inj hfq]
    exact hqleaf
  · rw [if_neg h1] at hfq
    exact absurd hfq (by simp)

lemma valAt_applyG_leaf (t : Tree) (G : List String) (ps : List (List String))
    (l g : String) (hps : ∀ p ∈ ps, pathOkFor t G p)
    (hleaf : nodeLeafKeys t G l = true) :
    valAt (applyG (aggF t G ps) t) l g = valAt t l g := by
  obtain ⟨ln, hl, hlc, hlk⟩ := nodeLeafKeys_spec t G l hleaf
  have hc : contribsOf ps l = [] := contribs_leaf_nil t G ps l hps hleaf
  unfold valAt
  rw [get_applyG, hl]
  show dictGet (aggF t G ps ln.nid ln.data.groups) g = dictGet ln.data.groups g
  rw [get_nid t l ln hl]
  unfold aggF
  rw [if_pos hc]

lemma leafDesc_leafKeys (t : Tree) (G : List String) (x l : String)
    (hpaths : ∀ p ∈ t.pathsToLeaves, pathOkFor t G p)
    (hm : l ∈ leafDescendants (applyG (aggF t G t.pathsToLeaves) t) x) :
    ∃ nl, (applyG (aggF t G t.pathsToLeaves) t).get l = some nl
      ∧ dictKeys nl.data.groups = G := by
  unfold leafDescendants at hm
  rw [pathsToLeaves_applyG] at hm
  obtain ⟨q, hq, hfq⟩ := List.mem_filterMap.mp hm
  obtain ⟨hqne, hqnd, hqint, hqleaf⟩ := hpaths q hq
  by_cases h1 : x ∈ q
  · rw [if_pos h1, getLast?_eq_getLastD q hqne] at hfq
    have hlx : l = q.getLastD ("") := (Option.some.inj hfq).symm
    rw [← hlx] at hqleaf
    obtain ⟨nl, hnl, hnlc, hkeys⟩ := nodeLeafKeys_spec t G l hqleaf
    have hc0 : contribsOf t.pathsToLeaves l = [] :=
      contribs_leaf_nil t G t.pathsToLeaves l hpaths hqleaf
    refine ⟨tfG (aggF t G t.pathsToLeaves) nl, ?_, ?_⟩
    · rw [get_applyG, hnl]
      rfl
    · show dictKeys (aggF t G t.pathsToLeaves nl.nid nl.data.groups) = G
      rw [get_nid t l nl hnl]
      unfold aggF
      rw [if_pos hc0]
      exact hkeys
  · rw [if_neg h1] at hfq
    exact absurd hfq (by simp)

lemma filterMap_last_single (x : String) :
    ∀ (P : List (List String)),
      (P.map (fun p => p.getLastD (""))).Nodup →
      (∃ p0 ∈ P, p0.getLastD ("") = x) →
      P.filterMap (fun q => if q.getLastD ("") = x then some x else none) = [x] := by
  intro P
  induction P with
  | nil =>
    intro hnd hex
    obtain ⟨p0, hp0, hl0⟩ := hex
    exact absurd hp0 (List.not_mem_nil p0)
  | cons q Q ih =>
    intro hnd hex
    simp only [List.map_cons, List.nodup_cons] at hnd
    by_cases hq : q.getLastD ("") = x
    · have hnil : Q.filterMap (fun q2 => if q2.getLastD ("") = x then some x else none)
          = [] := by
        apply filterMap_nil_of
        intro q2 hq2
        have hne : q2.getLastD ("") ≠ x := by
          intro he
          apply hnd.1
          rw [hq, ← he]
          exact List.mem_map_of_mem _ hq2
        rw [if_neg hne]
      rw [List.filterMap_cons, if_pos hq]
      show x :: Q.filterMap (fun q2 => if q2.getLastD ("") = x then some x else none) = [x]
      rw [hnil]
    · rw [List.filterMap_cons, if_neg hq]
      show Q.filterMap (fun q2 => if q2.getLastD ("") = x then some x else none) = [x]
      apply ih hnd.2
      obtain ⟨p0, hp0, hl0⟩ := hex
      rcases List.mem_cons.mp hp0 with h1 | h1
      · exact absurd (h1 ▸ hl0) hq
      · exact ⟨p0, h1, hl0⟩

lemma sum_map_zero {α : Type} (l : List α) : (l.map (fun _ => (0 : ℚ))).sum = 0 := by
  induction l with
  | nil => rfl
  | cons a rest ih =>
    simp only [List.map_cons, List.sum_cons, ih, add_zero]

lemma sum_map_add {α : Type} (l : List α) (f g : α → ℚ) :
    (l.map (fun a => f a + g a)).sum = (l.map f).sum + (l.map g).sum := by
  induction l with
  | nil => simp
  | cons a rest ih =>
    simp only [List.map_cons, List.sum_cons, ih]
    ring

lemma sum_exchange (t2 : Tree) (G D : List String) :
    (G.map (fun g => (D.map (fun l => valAt t2 l g)).sum)).sum
      = (D.map (fun l => (G.map (fun g => valAt t2 l g)).sum)).sum := by
  induction G with
  | nil =>
    rw [show (D.map (fun l => (([] : List String).map (fun g => valAt t2 l g)).sum))
        = D.map (fun _ => (0 : ℚ)) from mapCongrMem D _ _ (fun l _ => rfl)]
    rw [List.map_nil, List.sum_nil, sum_map_zero]
  | cons g0 G ih =>
    simp only [List.map_cons, List.sum_cons]
    rw [ih, ← sum_map_add D (fun l => valAt t2 l g0)
      (fun l => (G.map (fun g => valAt t2 l g)).sum)]

lemma total_from_groups (t2 : Tree) (G : List String) (hG : G.Nodup)
    (D : List String) (n2 : TNode)
    (hgr : n2.data.groups = G.map (fun g => (g, (D.map (fun l => valAt t2 l g)).sum)))
    (hD : ∀ l ∈ D, ∃ nl, t2.get l = some nl ∧ dictKeys nl.data.groups = G) :
    n2.data.total
      = (D.map (fun l => ((t2.get l).map (fun nn => nn.data.total)).getD 0)).sum := by
  unfold Thile.total
  rw [hgr, List.map_map]
  show (G.map (fun g => (D.map (fun l => valAt t2 l g)).sum)).sum
    = (D.map (fun l => ((t2.get l).map (fun nn => nn.data.total)).getD 0)).sum
  rw [sum_exchange t2 G D]
  apply congrArg List.sum
  apply mapCongrMem
  intro l hl
  obtain ⟨nl, hnl, hkeys⟩ := hD l hl
  show (G.map (fun g => valAt t2 l g)).sum
    = ((t2.get l).map (fun nn => nn.data.total)).getD 0
  rw [hnl]
  show (G.map (fun g => valAt t2 l g)).sum = nl.data.total
  unfold Thile.total
  rw [dict_eta nl.data.groups G hkeys hG, List.map_map]
  apply congrArg List.sum
  apply mapCongrMem
  intro g hg2
  show valAt t2 l g = dictGet nl.data.groups g
  unfold valAt
  rw [hnl]
  rfl

instance (t : Tree) (G : List String) : Decidable (WF t G) :=
  decidable_of_iff (G.Nodup
    ∧ (∀ p ∈ t.pathsToLeaves, p ≠ [] ∧ p.Nodup
        ∧ (∀ x ∈ p.dropLast, nodeInterior t x = true)
        ∧ nodeLeafKeys t G (p.getLastD ("")) = true)
    ∧ (t.pathsToLeaves.map (fun p : List String => p.getLastD (""))).Nodup
    ∧ (∀ n ∈ t.nodes, ∃ p ∈ t.pathsToLeaves, n.nid ∈ p)) Iff.rfl

set_option maxHeartbeats 4000000 in
lemma exAgg_eq : leaf_up_tree exTreePre = some exTree := by
  simp [leaf_up_tree, Tree.pathsToLeaves, Tree.leaves, ancPath, processPath, aggStep,
    deepcopy_node_data, inc_dict, Tree.setGroups, Tree.get, dictFind, exTreePre, exTree,
    nRpre, nRApre, nRBpre, nRAx, nRAy, nRBz, nR, nRA, nRB,
    List.foldlM, List.find?, List.map, List.isEmpty, Option.bind, Option.map,
    List.mapM, List.mapM.loop, List.filter, List.filterMap]

/-- Claim C2: after leaf_up_tree aggregation of a well-formed built tree,
every node's groups mapping equals the keyed elementwise sum of the groups
mappings of its descendant leaves, and every node's total equals the sum
of its descendant leaves' totals. -/
theorem C2_conservation (t : Tree) (G : List String) (t2 : Tree)
    (hWF : WF t G) (hagg : leaf_up_tree t = some t2) :
    ∀ x n2, t2.get x = some n2 →
      n2.data.groups = G.map (fun g => (g,
          ((leafDescendants t2 x).map (fun l => valAt t2 l g)).sum))
      ∧ n2.data.total = ((leafDescendants t2 x).map (fun l =>
          ((t2.get l).map (fun nn => nn.data.total)).getD 0)).sum := by
  obtain ⟨hG, hpaths, hlnd, hcover⟩ := hWF
  have ht2 : t2 = applyG (aggF t G t.pathsToLeaves) t := by
    have h := leaf_up_applyG t G hG hpaths
    rw [hagg] at h
    exact Option.some.inj h
  subst ht2
  intro x n2 hx2
  rw [get_applyG] at hx2
  rcases hg : t.get x with _ | n
  · rw [hg] at hx2
    exact absurd hx2 (by simp)
  rw [hg] at hx2
  have hx2b : some (tfG (aggF t G t.pathsToLeaves) n) = some n2 := hx2
  have hn2 : n2 = tfG (aggF t G t.pathsToLeaves) n := (Option.some.inj hx2b).symm
  have hmem : n ∈ t.nodes := get_mem t x n hg
  have hnid : n.nid = x := get_nid t x n hg
  obtain ⟨p, hpP, hxp0⟩ := hcover n hmem
  have hxp : x ∈ p := by
    rw [← hnid]
    exact hxp0
  obtain ⟨hpne, hpnd, hpint, hpleaf⟩ := hpaths p hpP
  rcases mem_path_cases p hpne x hxp with hdrop | hlastx
  · have hIx : nodeInterior t x = true := hpint x hdrop
    obtain ⟨na, hna, hcne, hgnil⟩ := nodeInterior_spec t x hIx
    rw [hg] at hna
    have hena : n = na := Option.some.inj hna
    rw [← hena] at hcne hgnil
    have hlastp : p.getLast? = some (p.getLastD ("")) := getLast?_eq_getLastD p hpne
    have hmemc : p.getLastD ("") ∈ contribsOf t.pathsToLeaves x := by
      unfold contribsOf
      apply List.mem_filterMap.mpr
      exact ⟨p, hpP, by rw [if_pos hdrop, hlastp]⟩
    have hcnz : contribsOf t.pathsToLeaves x ≠ [] := by
      intro h0
      rw [h0] at hmemc
      exact List.not_mem_nil _ hmemc
    have hgr : n2.data.groups = sumDict t G (contribsOf t.pathsToLeaves x) := by
      rw [hn2]
      show aggF t G t.pathsToLeaves n.nid n.data.groups
        = sumDict t G (contribsOf t.pathsToLeaves x)
      rw [hnid]
      unfold aggF
      rw [if_neg hcnz]
    have hLD : leafDescendants (applyG (aggF t G t.pathsToLeaves) t) x
        = contribsOf t.pathsToLeaves x := by
      unfold leafDescendants contribsOf
      rw [pathsToLeaves_applyG]
      apply filterMapCongrMem
      intro q hq
      obtain ⟨hqne, hqnd, hqint, hqleaf⟩ := hpaths q hq
      show (if x ∈ q then q.getLast? else none)
        = (if x ∈ q.dropLast then q.getLast? else none)
      by_cases h1 : x ∈ q.dropLast
      · rw [if_pos ((List.dropLast_sublist q).subset h1), if_pos h1]
      · have hnx : x ∉ q := by
          intro hxq
          rcases mem_path_cases q hqne x hxq with h2 | h2
          · exact h1 h2
          · rw [← h2] at hqleaf
            obtain ⟨n3, hn3, hc3, hk3⟩ := nodeLeafKeys_spec t G x hqleaf
            rw [hg] at hn3
            rw [← Option.some.inj hn3] at hc3
            exact hcne hc3
        rw [if_neg hnx, if_neg h1]
    have hgroups : n2.data.groups = G.map (fun g => (g,
        ((leafDescendants (applyG (aggF t G t.pathsToLeaves) t) x).map
          (fun l => valAt (applyG (aggF t G t.pathsToLeaves) t) l g)).sum)) := by
      rw [hgr, hLD]
      unfold sumDict
      apply mapCongrMem
      intro g hg2
      apply congrArg (Prod.mk g)
      apply congrArg List.sum
      apply mapCongrMem
      intro l hlm
      exact (valAt_applyG_leaf t G t.pathsToLeaves l g hpaths
        (contribs_are_leaves t G t.pathsToLeaves x l hpaths hlm)).symm
    exact ⟨hgroups, total_from_groups _ G hG _ n2 hgroups
      (fun l hl => leafDesc_leafKeys t G x l hpaths hl)⟩
  · rw [← hlastx] at hpleaf
    obtain ⟨n3, hn3, hc3, hkeys3⟩ := nodeLeafKeys_spec t G x hpleaf
    rw [hg] at hn3
    have hen3 : n = n3 := Option.some.inj hn3
    rw [← hen3] at hc3 hkeys3
    have hc0 : contribsOf t.pathsToLeaves x = [] :=
      contribs_leaf_nil t G t.pathsToLeaves x hpaths hpleaf
    have hgr : n2.data.groups = n.data.groups := by
      rw [hn2]
      show aggF t G t.pathsToLeaves n.nid n.data.groups = n.data.groups
      rw [hnid]
      unfold aggF
      rw [if_pos hc0]
    have hLD : leafDescendants (applyG (aggF t G t.pathsToLeaves) t) x = [x] := by
      unfold leafDescendants
      rw [pathsToLeaves_applyG]
      have h1 : t.pathsToLeaves.filterMap (fun q => if x ∈ q then q.getLast? else none)
          = t.pathsToLeaves.filterMap
              (fun q => if q.getLastD ("") = x then some x else none) := by
        apply filterMapCongrMem
        intro q hq
        obtain ⟨hqne, hqnd, hqint, hqleaf⟩ := hpaths q hq
        show (if x ∈ q then q.getLast? else none)
          = (if q.getLastD ("") = x then some x else none)
        by_cases h2 : q.getLastD ("") = x
        · have hxm : x ∈ q := by
            rw [← h2]
            exact lastD_mem q hqne
          rw [if_pos hxm, if_pos h2, getLast?_eq_getLastD q hqne, h2]
        · have hxm : x ∉ q := by
            intro hxq
            rcases mem_path_cases q hqne x hxq with h3 | h3
            · obtain ⟨n4, hn4, hc4, hg4⟩ := nodeInterior_spec t x (hqint x h3)
              rw [hg] at hn4
              rw [← Option.some.inj hn4] at hc4
              exact hc4 hc3
            · exact h2 h3.symm
          rw [if_neg hxm, if_neg h2]
      rw [h1]
      exact filterMap_last_single x t.pathsToLeaves hlnd ⟨p, hpP, hlastx.symm⟩
    have hgroups : n2.data.groups = G.map (fun g => (g,
        ((leafDescendants (applyG (aggF t G t.pathsToLeaves) t) x).map
          (fun l => valAt (applyG (aggF t G t.pathsToLeaves) t) l g)).sum)) := by
      rw [hgr, hLD, dict_eta n.data.groups G hkeys3 hG]
      apply mapCongrMem
      intro g hg2
      apply congrArg (Prod.mk g)
      have hsum : ([x].map
          (fun l => valAt (applyG (aggF t G t.pathsToLeaves) t) l g)).sum
          = valAt (applyG (aggF t G t.pathsToLeaves) t) x g := by
        simp
      rw [hsum, valAt_applyG_leaf t G t.pathsToLeaves x g hpaths hpleaf]
      unfold valAt
      rw [hg]
      rfl
    exact ⟨hgroups, total_from_groups _ G hG _ n2 hgroups
      (fun l hl => leafDesc_leafKeys t G x l hpaths hl)⟩

/-- Witness for C2_conservation: the example build, checked at the root.
The well-formedness and aggregation hypotheses hold for the example
pre-aggregation tree, and the conclusion is instantiated at the root node. -/
theorem C2_conservation_wit :
    WF exTreePre exG
    ∧ leaf_up_tree exTreePre = some exTree
    ∧ (nR.data.groups = exG.map (fun g => (g,
          ((leafDescendants exTree ("R")).map (fun l => valAt exTree l g)).sum))
      ∧ nR.data.total = ((leafDescendants exTree ("R")).map (fun l =>
          ((exTree.get l).map (fun nn => nn.data.total)).getD 0)).sum) :=
  ⟨by decide, exAgg_eq,
    C2_conservation exTreePre exG exTree (by decide) exAgg_eq ("R") nR (by rfl)⟩


end TreeTheil
